import Mathlib

/-!
Shallow embedding of `src/big_integer.h` / `src/big_integer.cpp`
(namespace `big_num_arithmetic`, class `BigInteger`).

Modelling conventions:
* C++ `int64_t` values are modelled as `Int`; `B * B = 10^18 < 2^63`, so all
  limb arithmetic performed by the source stays within `int64_t` and the exact
  `Int` semantics coincides with the machine semantics on every reachable
  state.  The one place where `int64_t` wrap-around is observable (the
  explicit `operator int64_t` conversion at the magnitude `2^63`) is modelled
  explicitly through `wrap64`.
* C++ `%` and `/` on `int64_t` truncate toward zero: they are `Int.tmod` and
  `Int.tdiv`.
* C++ `std::string` is modelled as `List Int` of character codes
  (`'0' = 48 … '9' = 57`, `'a' = 97 … 'z' = 122`, minus sign = 45,
  `'x' = 120`), matching the byte-level view the source manipulates.
* `while` loops whose trip count is bounded by a simple function of the input
  are modelled by structural recursion on an explicit fuel argument that
  dominates that bound; sufficiency of the fuel is proved in the lemmas.
* Thrown exceptions are modelled by `Except Err`.
* The C++ sign-delegation recursions in `operator+`, `operator*`, `operator/`
  recurse at most twice, and each delegated call provably takes a known
  branch (negating a strictly negative value yields a non-negative one, and
  `CompareAbsoluteValues` is antisymmetric), so they are embedded in unfolded
  form (`addFull`/`add`, `mulFull`/`mul`, `divFull`/`divTotal`).
-/

namespace big_num_arithmetic

/-- `BigInteger::internal_base = 1'000'000'000`. -/
def internal_base : Int := 1000000000

/-- The state of a `BigInteger`: limb vector (least significant first) and
the `is_negative` flag (default `false`). -/
structure BigInteger where
  digits_ : List Int
  is_negative : Bool
deriving DecidableEq

/-- `BigInteger::Sign()`: `0` for an empty limb vector, otherwise `±1` per
the flag (big_integer.h, lines 17-19). -/
def Sign (x : BigInteger) : Int :=
  if x.digits_.length = 0 then 0 else if x.is_negative then -1 else 1

/-- The inner loop of `CompareAbsoluteValues`: lexicographic comparison of
two equal-length digit lists given most-significant first. -/
def compareLex : List Int → List Int → Int
  | x :: xs, y :: ys => if x ≠ y then (if x < y then -1 else 1) else compareLex xs ys
  | _, _ => 0

/-- `BigInteger::CompareAbsoluteValues` (big_integer.cpp, lines 425-436):
compare limb counts, then limbs from most significant down. -/
def CompareAbsoluteValues (lhs rhs : BigInteger) : Int :=
  if lhs.digits_.length ≠ rhs.digits_.length then
    (if lhs.digits_.length < rhs.digits_.length then -1 else 1)
  else compareLex lhs.digits_.reverse rhs.digits_.reverse

/-- `operator==` for two `BigInteger`s (lines 142-147). -/
def eqOp (a b : BigInteger) : Bool :=
  if Sign a ≠ Sign b then false else decide (CompareAbsoluteValues a b = 0)

/-- `operator!=` (lines 148-150). -/
def neOp (a b : BigInteger) : Bool := !eqOp a b

/-- `operator<` (lines 151-156). -/
def ltOp (a b : BigInteger) : Bool :=
  if Sign a ≠ Sign b then decide (Sign a < Sign b)
  else decide (CompareAbsoluteValues a b * Sign a = -1)

/-- `operator>` (lines 157-159). -/
def gtOp (a b : BigInteger) : Bool := !(eqOp a b || ltOp a b)

/-- `operator<=` (lines 160-162). -/
def leOp (a b : BigInteger) : Bool := eqOp a b || ltOp a b

/-- `operator>=` (lines 163-165). -/
def geOp (a b : BigInteger) : Bool := !ltOp a b

/-- The digit-emitting loop of the `BigInteger(int64_t)` constructor
(lines 91-97): emit `abs(value % internal_base)` and continue with
`value / internal_base` while the value is nonzero.  The constructor's
argument is an `int64_t`; fuel `64` dominates the trip count for every
value of magnitude below `internal_base ^ 64`. -/
def intDigits : Nat → Int → List Int
  | 0, _ => []
  | f + 1, v =>
    if v = 0 then []
    else ((v.tmod internal_base).natAbs : Int) :: intDigits f (v.tdiv internal_base)

/-- `BigInteger(int64_t value)` (lines 91-97): `SetSign(value)` then the
digit loop. -/
def fromInt (v : Int) : BigInteger := ⟨intDigits 64 v, decide (v < 0)⟩

/-- `operator==(int64_t)` (lines 167-169). -/
def eqInt (a : BigInteger) (v : Int) : Bool := eqOp a (fromInt v)

/-- `operator!=(int64_t)` (lines 170-172). -/
def neInt (a : BigInteger) (v : Int) : Bool := neOp a (fromInt v)

/-- `operator<(int64_t)` (lines 173-175). -/
def ltInt (a : BigInteger) (v : Int) : Bool := ltOp a (fromInt v)

/-- `operator>(int64_t)` (lines 176-178). -/
def gtInt (a : BigInteger) (v : Int) : Bool := gtOp a (fromInt v)

/-- Unary `operator-` (lines 346-350): copy, then `Negate()` flips the flag
(big_integer.h, line 20), regardless of the value. -/
def negOp (x : BigInteger) : BigInteger := ⟨x.digits_, !x.is_negative⟩

/-- `Abs()` (big_integer.h, line 21): clear the flag. -/
def absOp (x : BigInteger) : BigInteger := ⟨x.digits_, false⟩

/-- `BigInteger::RemoveZeroes` (lines 377-386): truncate the limb vector
after its last nonzero limb. -/
def removeZeroesL (l : List Int) : List Int :=
  (l.reverse.dropWhile (fun d => d = 0)).reverse

/-- `BigInteger::RemainderByBase` (lines 407-409), with C++ truncating `%`. -/
def RemainderByBase (n : Int) : Int :=
  ((n.tmod internal_base) + internal_base).tmod internal_base

/-- The carry loop of `operator+` (lines 265-276).  One iteration per fuel
unit; the loop exits when the left limbs are exhausted and the carry is zero.
`s` is `rhs.Sign()`, constant through the loop (`SignedDigitAt`);
absent limbs contribute `0`, matching the `i < NumberOfDigits()` guards. -/
def addLoop : Nat → Int → List Int → List Int → Int → List Int
  | 0, _, _, _, _ => []
  | fuel + 1, s, xs, ys, c =>
    if xs = [] ∧ c = 0 then []
    else
      let d := c + xs.headD 0 + s * ys.headD 0
      let r := RemainderByBase d
      r :: addLoop fuel s xs.tail ys.tail ((d - r).tdiv internal_base)

/-- The all-cases-resolved core of `operator+` (lines 264-278): the carry
loop into a default-constructed result (flag `false`), then `RemoveZeroes`.
The fuel dominates the loop's trip count whenever the loop terminates. -/
def addCoreFn (a b : BigInteger) : BigInteger :=
  ⟨removeZeroesL
      (addLoop (a.digits_.length + b.digits_.length + 2) (Sign b)
        a.digits_ b.digits_ 0),
    false⟩

/-- `operator+` after its commuting first branch: the `*this < 0` delegation
(line 261-263) or the core loop. -/
def addFull (a b : BigInteger) : BigInteger :=
  if ltInt a 0 then negOp (addCoreFn (negOp a) (negOp b)) else addCoreFn a b

/-- `operator+` (lines 257-279).  The source delegates `a + b` to `b + a`
when `CompareAbsoluteValues(a,b) == -1` (the re-entered call then takes the
other branch since `CompareAbsoluteValues` is antisymmetric), and delegates
a negative left operand to `-((-a) + (-b))` (the re-entered call then has a
non-negative left operand). -/
def add (a b : BigInteger) : BigInteger :=
  if CompareAbsoluteValues a b = -1 then addFull b a else addFull a b

/-- `operator-` (lines 280-282): `a < 0 ? -((-a) + b) : a + (-b)`. -/
def sub (a b : BigInteger) : BigInteger :=
  if ltInt a 0 then negOp (add (negOp a) b) else add a (negOp b)

/-- The carry loop of `MultiplyByShort` (lines 412-420), with C++ truncating
`%` and `/` (all quantities are non-negative in every reachable call). -/
def mulShortLoop : Nat → List Int → Int → Int → List Int
  | 0, _, _, _ => []
  | fuel + 1, xs, r, c =>
    if xs = [] ∧ c = 0 then []
    else
      let d := c + xs.headD 0 * r
      d.tmod internal_base :: mulShortLoop fuel xs.tail r (d.tdiv internal_base)

/-- `MultiplyByShort(lhs, rhs)` (lines 410-424): the carry loop,
`RemoveZeroes`, then `is_negative = lhs < 0`. -/
def MultiplyByShort (x : BigInteger) (r : Int) : BigInteger :=
  ⟨removeZeroesL (mulShortLoop (x.digits_.length + 2) x.digits_ r 0),
    ltInt x 0⟩

/-- `InsertLeastSignificantDigit(digit, quantity)` (lines 393-395) as used by
`operator*`: prepend `i` zero limbs. -/
def padZeros (i : Nat) (x : BigInteger) : BigInteger :=
  ⟨List.replicate i 0 ++ x.digits_, x.is_negative⟩

/-- The accumulation loop of `operator*` (lines 290-295): for each limb of
the right operand, scale the left operand, shift, and add into the result. -/
def mulAccum (a : BigInteger) : List Int → Nat → BigInteger → BigInteger
  | [], _, acc => acc
  | d :: ds, i, acc => mulAccum a ds (i + 1) (add acc (padZeros i (MultiplyByShort a d)))

/-- `operator*` on two non-negative operands (lines 290-297): the
accumulation loop from `BigInteger{0}`, then `RemoveZeroes`. -/
def mulPos (a b : BigInteger) : BigInteger :=
  let r := mulAccum a b.digits_ 0 (fromInt 0)
  ⟨removeZeroesL r.digits_, r.is_negative⟩

/-- `operator*` after the left operand's sign delegation (lines 287-289). -/
def mulFull (a b : BigInteger) : BigInteger :=
  if ltInt b 0 then negOp (mulPos a (negOp b)) else mulPos a b

/-- `operator*` (lines 283-298) with both sign delegations unfolded. -/
def mul (a b : BigInteger) : BigInteger :=
  if ltInt a 0 then negOp (mulFull (negOp a) b) else mulFull a b

/-- The bisection loop of `GuessDigit` (lines 76-83).  One iteration per
fuel unit; each iteration halves `u - l`, so fuel `64` dominates the trip
count for the initial interval `[0, internal_base)`. -/
def guessLoop : Nat → Int → Int → BigInteger → BigInteger → Int
  | 0, l, _, _, _ => l
  | fuel + 1, l, u, lhs, rhs =>
    if l + 1 < u then
      let m := (l + u).tdiv 2
      if gtOp (MultiplyByShort rhs m) lhs then guessLoop fuel l m lhs rhs
      else guessLoop fuel m u lhs rhs
    else l

/-- `GuessDigit(lhs, rhs)` (lines 73-85): binary search for the largest
`q ∈ [0, internal_base)` with `rhs * q ≤ lhs`. -/
def GuessDigit (lhs rhs : BigInteger) : Int :=
  guessLoop 64 0 internal_base lhs rhs

/-- One iteration of the long-division loop of `operator/`
(lines 315-320): prepend the next dividend limb into the trailing
remainder, guess the quotient limb, append it to the (reversed) result,
and subtract `rhs * digit` from the remainder. -/
def divStep (rhs : BigInteger) (st : List Int × BigInteger) (d : Int) :
    List Int × BigInteger :=
  let trailing : BigInteger := ⟨d :: st.2.digits_, st.2.is_negative⟩
  let q := GuessDigit trailing rhs
  (st.1 ++ [q], sub trailing (MultiplyByShort rhs q))

/-- `operator/` on two non-negative operands (lines 309-322): the long
division loop from the most significant dividend limb down, then
`ReverseDigitsAndNormalize` (lines 402-405).  The reversed result and the
trailing dividend both start as `BigInteger{0}` (flag `false`). -/
def divPos (a b : BigInteger) : BigInteger :=
  let st := a.digits_.reverse.foldl (divStep b) (([] : List Int), fromInt 0)
  ⟨removeZeroesL st.1.reverse, false⟩

/-- `operator/` after the left operand's sign delegation (lines 306-308). -/
def divFull (a b : BigInteger) : BigInteger :=
  if ltInt b 0 then negOp (divPos a (negOp b)) else divPos a b

/-- `operator/` (lines 299-323) past its division-by-zero check, with both
sign delegations unfolded. -/
def divTotal (a b : BigInteger) : BigInteger :=
  if ltInt a 0 then negOp (divFull (negOp a) b) else divFull a b

/-- The error taxonomy of the source: `std::logic_error("Invalid base")`,
`std::runtime_error("Invalid symbol at index i")`, `DivisionByZeroError`
(a distinguished struct, big_integer.h line 107), and
`std::runtime_error("int64_t overflow")`. -/
inductive Err where
  | invalidBase : Err
  | invalidChar : Nat → Err
  | divZero : Err
  | overflow : Err
deriving DecidableEq

/-- `operator/` (lines 299-323) including the `DivisionByZeroError` throw. -/
def divOp (a b : BigInteger) : Except Err BigInteger :=
  if eqInt b 0 then .error .divZero else .ok (divTotal a b)

/-- `operator/(int64_t)` (lines 240-242). -/
def divInt (a : BigInteger) (v : Int) : Except Err BigInteger := divOp a (fromInt v)

/-- Two's-complement wrap-around of an `int64_t` accumulator. -/
def wrap64 (n : Int) : Int := (n + 2 ^ 63) % 2 ^ 64 - 2 ^ 63

/-- The accumulation loop of `operator int64_t` (lines 356-363): add
`digit * power` into `result`, and advance `power` only while
`BigInteger(power) * internal_base <= INT64_MAX` (a check the source makes
in exact `BigInteger` arithmetic).  Additions and multiplications on the
`int64_t` accumulator wrap. -/
def castLoop : List Int → Int → Int → Int
  | [], res, _ => res
  | d :: ds, res, pw =>
    castLoop ds (wrap64 (res + wrap64 (d * pw)))
      (if leOp (mul (fromInt pw) (fromInt internal_base)) (fromInt 9223372036854775807)
        then pw * internal_base else pw)

/-- `operator int64_t` (lines 352-365): range check against
`INT64_MAX`/`INT64_MIN` in `BigInteger` arithmetic, then the accumulation
loop, then `result * Sign()`. -/
def toInt64 (x : BigInteger) : Except Err Int :=
  if gtInt x 9223372036854775807 || ltInt x (-9223372036854775808) then
    .error .overflow
  else .ok (wrap64 (castLoop x.digits_ 0 1 * Sign x))

/-- `operator%(uint32_t rhs)` (lines 325-327):
`(int64_t(*this - (*this / rhs) * rhs) + rhs) % rhs` with truncating `%`.
A thrown `DivisionByZeroError` (for `rhs == 0`) or overflow propagates. -/
def modOp (a : BigInteger) (m : Nat) : Except Err Int :=
  match divInt a m with
  | .error e => .error e
  | .ok q =>
    match toInt64 (sub a (mul q (fromInt m))) with
    | .error e => .error e
    | .ok d => .ok ((d + m).tmod m)

/-- `CharToDigit` (lines 51-59) over character codes:
`48 ≤ c ≤ 57` is a decimal digit, `97 ≤ c ≤ 122` is a lowercase letter,
anything else maps to `-1`. -/
def CharToDigit (c : Int) : Int :=
  if 48 ≤ c ∧ c ≤ 57 then c - 48
  else if 97 ≤ c ∧ c ≤ 122 then c - 97 + 10
  else -1

/-- `DigitToChar` (lines 13-15): digits below ten map to `'0'..'9'`
(codes 48-57), the rest to `'a'..'z'` (codes 97-122). -/
def DigitToChar (d : Int) : Int := if d < 10 then d + 48 else d - 10 + 97

/-- `GetReversedBasePrefix` (lines 60-72): `"0"` for octal, `"x0"` for hex
(both already reversed), empty otherwise.  Codes: `48 = '0'`, `120 = 'x'`. -/
def reversedBaseMarker (base : Int) : List Int :=
  if base = 8 then [48] else if base = 16 then [120, 48] else []

/-- The validation loop of `FromString` (lines 101-109): skip a minus sign
(code 45) at index 0, and report the first index whose character maps to
`-1` or to a digit at or above the base. -/
def validateFrom (base : Int) : Nat → List Int → Option Nat
  | _, [] => none
  | i, c :: cs =>
    if i = 0 ∧ c = 45 then validateFrom base (i + 1) cs
    else if CharToDigit c ≥ base ∨ CharToDigit c = -1 then some i
    else validateFrom base (i + 1) cs

/-- The accumulation loop of `FromString` (lines 110-118), iterating over
the reversed input: skip minus signs, otherwise add
`MultiplyByShort(base_power, CharToDigit(c))` into the result and scale
`base_power` by the base. -/
def accumLoop (base : Int) : List Int → BigInteger → BigInteger → BigInteger
  | [], res, _ => res
  | c :: cs, res, pw =>
    if c = 45 then accumLoop base cs res pw
    else accumLoop base cs (add res (MultiplyByShort pw (CharToDigit c))) (MultiplyByShort pw base)

/-- `BigInteger::FromString` (lines 98-120): base check, validation loop,
accumulation, then negate if the first character is a minus sign.
(`input[0]` on an empty `std::string` reads the terminating null, code 0.) -/
def FromString (s : List Int) (base : Int) : Except Err BigInteger :=
  if base < 2 ∨ base > 36 then .error .invalidBase
  else
    match validateFrom base 0 s with
    | some i => .error (.invalidChar i)
    | none =>
      let r := accumLoop base s.reverse (fromInt 0) (fromInt 1)
      .ok (if s.headD 0 = 45 then negOp r else r)

/-- The digit-emitting loop of `ToString` (lines 127-131): while
`temp != 0`, emit `DigitToChar(int64_t(temp - MultiplyByShort(temp / base, base)))`
and divide `temp` by the base.  Both inner divisions are the full
`operator/` (whose zero check cannot fire, the base being at least 2), and
the `int64_t` conversion is the full checked `operator int64_t`. -/
def toStringLoop (base : Int) : Nat → BigInteger → Except Err (List Int)
  | 0, _ => .ok []
  | fuel + 1, temp =>
    if neInt temp 0 then
      match divInt temp base with
      | .error e => .error e
      | .ok q =>
        match toInt64 (sub temp (MultiplyByShort q base)) with
        | .error e => .error e
        | .ok digit =>
          match toStringLoop base fuel q with
          | .error e => .error e
          | .ok rest => .ok (DigitToChar digit :: rest)
    else .ok []

/-- `BigInteger::ToString` (lines 122-140): base check; start from `"0"`
iff the value is zero; extract digits from the absolute value; optionally
append the reversed base marker; append a minus sign (code 45) iff
`*this < 0`; reverse.  Fuel `30 * limbCount + 2` dominates the loop's trip
count since every limb is below `2^30`. -/
def ToString (x : BigInteger) (base : Int) (should_show_base : Bool) :
    Except Err (List Int) :=
  if base < 2 ∨ base > 36 then .error .invalidBase
  else
    match toStringLoop base (30 * x.digits_.length + 2) (absOp x) with
    | .error e => .error e
    | .ok ds =>
      .ok ((((if eqInt x 0 then [48] else []) ++ ds)
            ++ (if should_show_base then reversedBaseMarker base else [])
            ++ (if ltInt x 0 then [45] else [])).reverse)

/-- The ambient formatting state of a `std::ostream`: the `basefield` bits
and the `showbase` flag. -/
structure StreamFlags where
  hex : Bool
  oct : Bool
  showbase : Bool
deriving DecidableEq

/-- `operator<<(std::ostream&, const BigInteger&)` (lines 462-489).  The
source renders `big_int.ToString(10)` — always decimal — and, when
`showbase` is set and the value is negative, inserts an extra minus sign
before that (already signed) string; the `std::hex`/`std::oct`/`showbase`
manipulators it pipes in only mutate stream state and do not affect how the
following `std::string` is written. -/
def insertToStream (fl : StreamFlags) (x : BigInteger) : Except Err (List Int) :=
  match ToString x 10 false with
  | .error e => .error e
  | .ok str =>
    if fl.showbase then
      if fl.hex then .ok (if ltInt x 0 then 45 :: str else str)
      else if fl.oct then .ok (if ltInt x 0 then 45 :: str else str)
      else .ok (if ltInt x 0 then 45 :: str else str)
    else .ok str

/-! ## Semantic functions and invariants (not part of the source) -/

/-- The integer denoted by a limb list, least significant first. -/
def poly : List Int → Int
  | [] => 0
  | d :: ds => d + internal_base * poly ds

/-- The integer denoted by a limb list given most significant first. -/
def polyR : List Int → Int
  | [] => 0
  | d :: ds => d * internal_base ^ ds.length + polyR ds

/-- The value denoted by a `BigInteger` state. -/
def value (x : BigInteger) : Int :=
  (if x.is_negative then -1 else 1) * poly x.digits_

/-- Every limb lies in `[0, internal_base)`. -/
def DigitsInRange (l : List Int) : Prop := ∀ d ∈ l, 0 ≤ d ∧ d < internal_base

instance (l : List Int) : Decidable (DigitsInRange l) :=
  List.decidableBAll _ l

/-- No trailing (most-significant) zero limb. -/
def CanonDigits (l : List Int) : Prop := l.getLast? ≠ some 0

instance (l : List Int) : Decidable (CanonDigits l) := by
  unfold CanonDigits; infer_instance

/-- The well-formedness invariant every exposed operation preserves: limbs
in range and no trailing zero limb.  (The flag on an empty limb vector is
deliberately unconstrained: the source reaches such states, e.g. by
negating zero.) -/
def Wf (x : BigInteger) : Prop :=
  DigitsInRange x.digits_ ∧ CanonDigits x.digits_

instance (x : BigInteger) : Decidable (Wf x) := by
  unfold Wf; infer_instance

/-- The claim-side character-to-digit mapping, written from the spec text:
`'0'-'9' → 0-9`, `'a'-'z' → 10-35`, everything else invalid. -/
def specDigit (c : Int) : Option Int :=
  if 48 ≤ c ∧ c ≤ 57 then some (c - 48)
  else if 97 ≤ c ∧ c ≤ 122 then some (c - 97 + 10)
  else none

/-- The base-`b` value of a digit-character list, least significant first. -/
def lsfVal (b : Int) : List Int → Int
  | [] => 0
  | c :: cs => CharToDigit c + b * lsfVal b cs

/-- A character acceptable at index `i` when parsing in `base`, in the
claim's words: a minus sign at index 0, or a character mapping to a digit
strictly below the base via `specDigit`. -/
def goodAt (base : Int) (i : Nat) (c : Int) : Prop :=
  (i = 0 ∧ c = 45) ∨ ∃ d, specDigit c = some d ∧ d < base

instance (base : Int) (i : Nat) (c : Int) : Decidable (goodAt base i c) :=
  decidable_of_iff ((i = 0 ∧ c = 45) ∨
      0 ≤ (specDigit c).getD (-1) ∧ (specDigit c).getD (-1) < base) (by
    unfold goodAt
    constructor
    · rintro (h | ⟨h0, h1⟩)
      · exact Or.inl h
      · cases hs : specDigit c with
        | none =>
          rw [hs, Option.getD_none] at h0
          omega
        | some d =>
          rw [hs, Option.getD_some] at h1
          exact Or.inr ⟨d, rfl, h1⟩
    · rintro (h | ⟨d, hd, hlt⟩)
      · exact Or.inl h
      · right
        rw [hd, Option.getD_some]
        have hd0 : 0 ≤ d := by
          unfold specDigit at hd
          split_ifs at hd with h1 h2 <;> simp at hd <;> omega
        exact ⟨hd0, hlt⟩)

/-! ## Basic facts about `poly`, `polyR` and `removeZeroesL` -/

theorem internal_base_pos : 0 < internal_base := by decide

@[simp] theorem poly_nil : poly [] = 0 := rfl

@[simp] theorem poly_cons (d : Int) (ds : List Int) :
    poly (d :: ds) = d + internal_base * poly ds := rfl

@[simp] theorem polyR_nil : polyR [] = 0 := rfl

@[simp] theorem polyR_cons (d : Int) (ds : List Int) :
    polyR (d :: ds) = d * internal_base ^ ds.length + polyR ds := rfl

theorem digitsInRange_nil : DigitsInRange [] := by
  intro d hd; cases hd

theorem digitsInRange_cons {d : Int} {ds : List Int}
    (h1 : 0 ≤ d) (h2 : d < internal_base) (h : DigitsInRange ds) :
    DigitsInRange (d :: ds) := by
  intro e he
  rcases List.mem_cons.mp he with h' | h'
  · exact h' ▸ ⟨h1, h2⟩
  · exact h e h'

theorem digitsInRange_of_cons {d : Int} {ds : List Int}
    (h : DigitsInRange (d :: ds)) : DigitsInRange ds :=
  fun e he => h e (List.mem_cons_of_mem _ he)

theorem digitsInRange_head {d : Int} {ds : List Int}
    (h : DigitsInRange (d :: ds)) : 0 ≤ d ∧ d < internal_base :=
  h d (List.mem_cons_self _ _)

theorem digitsInRange_reverse {l : List Int} (h : DigitsInRange l) :
    DigitsInRange l.reverse := by
  intro d hd
  exact h d (List.mem_reverse.mp hd)

theorem digitsInRange_of_reverse {l : List Int} (h : DigitsInRange l.reverse) :
    DigitsInRange l := by
  intro d hd
  exact h d (List.mem_reverse.mpr hd)

theorem poly_nonneg {l : List Int} (h : DigitsInRange l) : 0 ≤ poly l := by
  induction l with
  | nil => simp
  | cons d ds ih =>
    have hd := digitsInRange_head h
    have := ih (digitsInRange_of_cons h)
    have hB := internal_base_pos
    simp only [poly_cons]
    nlinarith

theorem poly_lt {l : List Int} (h : DigitsInRange l) :
    poly l < internal_base ^ l.length := by
  induction l with
  | nil => simp
  | cons d ds ih =>
    have hd := digitsInRange_head h
    have := ih (digitsInRange_of_cons h)
    have hB := internal_base_pos
    simp only [poly_cons, List.length_cons, pow_succ]
    nlinarith

theorem polyR_eq_poly_reverse : ∀ l : List Int, polyR l = poly l.reverse := by
  intro l
  induction l with
  | nil => simp
  | cons d ds ih =>
    have : poly (ds.reverse ++ [d]) =
        poly ds.reverse + internal_base ^ ds.reverse.length * d := by
      clear ih
      induction ds.reverse with
      | nil => simp
      | cons e es ih2 => simp [ih2, pow_succ]; ring
    simp [List.reverse_cons, this, ih, List.length_reverse]
    ring

theorem poly_eq_polyR_reverse (l : List Int) : poly l = polyR l.reverse := by
  rw [polyR_eq_poly_reverse, List.reverse_reverse]

theorem polyR_nonneg {l : List Int} (h : DigitsInRange l) : 0 ≤ polyR l := by
  rw [polyR_eq_poly_reverse]
  exact poly_nonneg (digitsInRange_reverse h)

theorem polyR_lt {l : List Int} (h : DigitsInRange l) :
    polyR l < internal_base ^ l.length := by
  rw [polyR_eq_poly_reverse]
  have := poly_lt (digitsInRange_reverse h)
  simpa using this

theorem poly_replicate_zero_append (i : Nat) (l : List Int) :
    poly (List.replicate i 0 ++ l) = internal_base ^ i * poly l := by
  induction i with
  | zero => simp
  | succ n ih => simp [List.replicate_succ, ih, pow_succ]; ring

/-- The head of `dropWhile (· = 0)`, when present, is nonzero. -/
theorem head_dropWhile_ne_zero :
    ∀ (m : List Int) (d : Int),
      (m.dropWhile (fun x => decide (x = 0))).head? = some d → d ≠ 0 := by
  intro m
  induction m with
  | nil => intro d h; simp [List.dropWhile] at h
  | cons x ms ih =>
    intro d h
    by_cases hx : x = 0
    · rw [List.dropWhile_cons_of_pos (by simp [hx])] at h
      exact ih d h
    · rw [List.dropWhile_cons_of_neg (by simp [hx])] at h
      simp at h
      exact h ▸ hx

theorem polyR_dropWhile_zero (m : List Int) :
    polyR (m.dropWhile (fun x => decide (x = 0))) = polyR m := by
  induction m with
  | nil => simp
  | cons x ms ih =>
    by_cases hx : x = 0
    · rw [List.dropWhile_cons_of_pos (by simp [hx])]
      simp [ih, hx]
    · rw [List.dropWhile_cons_of_neg (by simp [hx])]

@[simp] theorem poly_removeZeroesL (l : List Int) :
    poly (removeZeroesL l) = poly l := by
  unfold removeZeroesL
  rw [poly_eq_polyR_reverse, List.reverse_reverse, polyR_dropWhile_zero,
    polyR_eq_poly_reverse, List.reverse_reverse]

theorem canonDigits_removeZeroesL (l : List Int) :
    CanonDigits (removeZeroesL l) := by
  unfold removeZeroesL CanonDigits
  intro h
  have h' : (l.reverse.dropWhile (fun x => decide (x = 0))).head? = some 0 := by
    rw [← List.head?_reverse] at h
    simpa using h
  exact head_dropWhile_ne_zero _ 0 h' rfl

theorem digitsInRange_removeZeroesL {l : List Int} (h : DigitsInRange l) :
    DigitsInRange (removeZeroesL l) := by
  unfold removeZeroesL
  intro d hd
  have : d ∈ l.reverse := List.dropWhile_subset _ (List.mem_reverse.mp hd)
  exact h d (List.mem_reverse.mp this)

/-! ## Reflection of the comparison operators -/

theorem compareLex_spec : ∀ xs ys : List Int, xs.length = ys.length →
    DigitsInRange xs → DigitsInRange ys →
    compareLex xs ys = Int.sign (polyR xs - polyR ys) := by
  intro xs
  induction xs with
  | nil =>
    intro ys hlen0 _ _
    cases ys with
    | nil => decide
    | cons y ys => exact absurd hlen0 (by simp)
  | cons x xs ih =>
    intro ys hlen0 hx hy
    cases ys with
    | nil => exact absurd hlen0 (by simp)
    | cons y ys =>
      have hlen : xs.length = ys.length := by simpa using hlen0
      have hxs := digitsInRange_of_cons hx
      have hys := digitsInRange_of_cons hy
      have hb1 : 0 ≤ polyR xs := polyR_nonneg hxs
      have hb2 : polyR xs < internal_base ^ xs.length := polyR_lt hxs
      have hb3 : 0 ≤ polyR ys := polyR_nonneg hys
      have hb4 : polyR ys < internal_base ^ ys.length := polyR_lt hys
      rw [← hlen] at hb4
      unfold compareLex
      by_cases hxy : x = y
      · subst hxy
        rw [if_neg (by simp)]
        rw [ih ys hlen hxs hys]
        congr 1
        simp only [polyR_cons, hlen]
        ring
      · have hpow : (0:Int) < internal_base ^ xs.length :=
          pow_pos internal_base_pos _
        rw [if_pos (by simpa using hxy)]
        by_cases hlt : x < y
        · rw [if_pos hlt]
          have hneg : polyR (x :: xs) - polyR (y :: ys) < 0 := by
            simp only [polyR_cons, ← hlen]
            nlinarith
          rw [Int.sign_eq_neg_one_iff_neg.mpr hneg]
        · rw [if_neg hlt]
          have hgt : y < x := lt_of_le_of_ne (le_of_not_lt hlt) (Ne.symm hxy)
          have hpos : 0 < polyR (x :: xs) - polyR (y :: ys) := by
            simp only [polyR_cons, ← hlen]
            nlinarith
          rw [Int.sign_eq_one_iff_pos.mpr hpos]

theorem poly_lower_of_canon {l : List Int} (h : DigitsInRange l)
    (hc : CanonDigits l) (hne : l ≠ []) :
    internal_base ^ (l.length - 1) ≤ poly l := by
  have hrev : l.reverse ≠ [] := by simpa using hne
  cases hr : l.reverse with
  | nil => exact absurd hr hrev
  | cons d ds =>
    have hd0 : d ≠ 0 := by
      intro hd
      apply hc
      rw [← List.head?_reverse, hr, hd]
      rfl
    have hdr : DigitsInRange (d :: ds) := hr ▸ digitsInRange_reverse h
    have hd1 : 1 ≤ d := by
      have := (digitsInRange_head hdr).1
      omega
    have hlow : internal_base ^ ds.length ≤ polyR (d :: ds) := by
      have h1 : 0 ≤ polyR ds := polyR_nonneg (digitsInRange_of_cons hdr)
      have h2 : (0:Int) < internal_base ^ ds.length := pow_pos internal_base_pos _
      simp only [polyR_cons]
      nlinarith
    have hlen : ds.length = l.length - 1 := by
      have : l.reverse.length = l.length := List.length_reverse l
      rw [hr] at this
      simp at this
      omega
    calc internal_base ^ (l.length - 1) = internal_base ^ ds.length := by rw [hlen]
    _ ≤ polyR (d :: ds) := hlow
    _ = polyR l.reverse := by rw [hr]
    _ = poly l := by rw [← poly_eq_polyR_reverse]

theorem poly_pos_of_canon {l : List Int} (h : DigitsInRange l)
    (hc : CanonDigits l) (hne : l ≠ []) : 0 < poly l := by
  have := poly_lower_of_canon h hc hne
  have : (0:Int) < internal_base ^ (l.length - 1) := pow_pos internal_base_pos _
  omega

theorem cmpAbs_spec {a b : BigInteger}
    (ha : Wf a) (hb : Wf b) :
    CompareAbsoluteValues a b = Int.sign (poly a.digits_ - poly b.digits_) := by
  obtain ⟨ha1, ha2⟩ := ha
  obtain ⟨hb1, hb2⟩ := hb
  unfold CompareAbsoluteValues
  by_cases hlen : a.digits_.length = b.digits_.length
  · rw [if_neg (by simp [hlen])]
    rw [compareLex_spec _ _ (by simp [hlen]) (digitsInRange_reverse ha1)
      (digitsInRange_reverse hb1)]
    rw [← poly_eq_polyR_reverse, ← poly_eq_polyR_reverse]
  · rw [if_pos (by simp [hlen])]
    by_cases hlt : a.digits_.length < b.digits_.length
    · rw [if_pos hlt]
      have hbne : b.digits_ ≠ [] := by
        intro h0
        rw [h0] at hlt
        simp at hlt
      have h1 : poly a.digits_ < internal_base ^ a.digits_.length := poly_lt ha1
      have h2 : internal_base ^ (b.digits_.length - 1) ≤ poly b.digits_ :=
        poly_lower_of_canon hb1 hb2 hbne
      have h3 : internal_base ^ a.digits_.length ≤
          internal_base ^ (b.digits_.length - 1) :=
        pow_le_pow_right₀ (by decide) (by omega)
      exact (Int.sign_eq_neg_one_iff_neg.mpr (by linarith)).symm
    · rw [if_neg hlt]
      have hane : a.digits_ ≠ [] := by
        intro h0
        have h0' : a.digits_.length = 0 := by rw [h0]; rfl
        omega
      have h1 : poly b.digits_ < internal_base ^ b.digits_.length := poly_lt hb1
      have h2 : internal_base ^ (a.digits_.length - 1) ≤ poly a.digits_ :=
        poly_lower_of_canon ha1 ha2 hane
      have h3 : internal_base ^ b.digits_.length ≤
          internal_base ^ (a.digits_.length - 1) :=
        pow_le_pow_right₀ (by decide) (by omega)
      exact (Int.sign_eq_one_iff_pos.mpr (by linarith)).symm

theorem length_le_of_cmpAbs_ne {a b : BigInteger}
    (h : CompareAbsoluteValues a b ≠ -1) :
    b.digits_.length ≤ a.digits_.length := by
  unfold CompareAbsoluteValues at h
  by_cases hl : a.digits_.length = b.digits_.length
  · omega
  · rw [if_pos (by simp [hl])] at h
    by_cases hlt : a.digits_.length < b.digits_.length
    · rw [if_pos hlt] at h
      exact absurd rfl h
    · omega

theorem sign_mul_poly (x : BigInteger) : Sign x * poly x.digits_ = value x := by
  unfold Sign value
  cases hx : x.digits_ with
  | nil => simp
  | cons d ds => cases x.is_negative <;> simp

theorem poly_eq_abs_value {x : BigInteger} (h : DigitsInRange x.digits_) :
    poly x.digits_ = |value x| := by
  have hp := poly_nonneg h
  unfold value
  cases x.is_negative <;> simp [abs_of_nonneg, hp]

theorem Sign_spec {x : BigInteger} (h : Wf x) : Sign x = Int.sign (value x) := by
  obtain ⟨h1, h2⟩ := h
  by_cases hx : x.digits_ = []
  · have hv : value x = 0 := by unfold value; rw [hx]; simp
    unfold Sign
    rw [hx, hv]
    simp
  · have hpos : 0 < poly x.digits_ := poly_pos_of_canon h1 h2 hx
    have hlen : x.digits_.length ≠ 0 := by
      intro h0
      exact hx (List.eq_nil_of_length_eq_zero h0)
    unfold Sign value
    rw [if_neg hlen]
    cases x.is_negative
    · rw [if_neg (by decide : ¬(false = true)), one_mul]
      exact (Int.sign_eq_one_iff_pos.mpr hpos).symm
    · rw [if_pos (rfl : true = true)]
      exact (Int.sign_eq_neg_one_iff_neg.mpr (by linarith)).symm

theorem cmpAbs_abs_spec {a b : BigInteger} (ha : Wf a) (hb : Wf b) :
    CompareAbsoluteValues a b = Int.sign (|value a| - |value b|) := by
  rw [cmpAbs_spec ha hb, poly_eq_abs_value ha.1, poly_eq_abs_value hb.1]

theorem sign_if_eq (u v : Int) :
    (if Int.sign u ≠ Int.sign v then false else decide (Int.sign (|u| - |v|) = 0))
      = decide (u = v) := by
  rcases lt_trichotomy u 0 with h1 | h1 | h1 <;>
    rcases lt_trichotomy v 0 with h2 | h2 | h2 <;>
    simp [Int.sign_eq_one_of_pos, Int.sign_eq_neg_one_of_neg, h1, h2,
      abs_of_neg, abs_of_pos] <;>
    omega

theorem decide_sign_mul_neg {u v : Int} (hu : u < 0) (hv : v < 0) :
    decide (Int.sign (|u| - |v|) * Int.sign u = -1) = decide (u < v) := by
  rw [Int.sign_eq_neg_one_of_neg hu, abs_of_neg hu, abs_of_neg hv]
  rcases lt_trichotomy u v with h | h | h
  · rw [Int.sign_eq_one_of_pos (by omega)]
    simp [h]
  · subst h
    simp
  · rw [Int.sign_eq_neg_one_of_neg (by omega)]
    simp
    omega

theorem decide_sign_mul_pos {u v : Int} (hu : 0 < u) (hv : 0 < v) :
    decide (Int.sign (|u| - |v|) * Int.sign u = -1) = decide (u < v) := by
  rw [Int.sign_eq_one_of_pos hu, abs_of_pos hu, abs_of_pos hv]
  rcases lt_trichotomy u v with h | h | h
  · rw [Int.sign_eq_neg_one_of_neg (by omega)]
    simp [h]
  · subst h
    simp
  · rw [Int.sign_eq_one_of_pos (by omega)]
    simp
    omega

theorem sign_if_lt (u v : Int) :
    (if Int.sign u ≠ Int.sign v then decide (Int.sign u < Int.sign v)
      else decide (Int.sign (|u| - |v|) * Int.sign u = -1)) = decide (u < v) := by
  by_cases hs : Int.sign u = Int.sign v
  · rw [if_neg (by simpa using hs)]
    rcases lt_trichotomy u 0 with h1 | h1 | h1
    · have h2 : v < 0 := by
        rcases lt_trichotomy v 0 with h | h | h
        · exact h
        · rw [Int.sign_eq_neg_one_of_neg h1, h, Int.sign_zero] at hs
          exact absurd hs (by decide)
        · rw [Int.sign_eq_neg_one_of_neg h1, Int.sign_eq_one_of_pos h] at hs
          exact absurd hs (by decide)
      exact decide_sign_mul_neg h1 h2
    · have h2 : v = 0 := by
        rcases lt_trichotomy v 0 with h | h | h
        · rw [h1, Int.sign_zero, Int.sign_eq_neg_one_of_neg h] at hs
          exact absurd hs (by decide)
        · exact h
        · rw [h1, Int.sign_zero, Int.sign_eq_one_of_pos h] at hs
          exact absurd hs (by decide)
      subst h1
      subst h2
      decide
    · have h2 : 0 < v := by
        rcases lt_trichotomy v 0 with h | h | h
        · rw [Int.sign_eq_one_of_pos h1, Int.sign_eq_neg_one_of_neg h] at hs
          exact absurd hs (by decide)
        · rw [Int.sign_eq_one_of_pos h1, h, Int.sign_zero] at hs
          exact absurd hs (by decide)
        · exact h
      exact decide_sign_mul_pos h1 h2
  · rw [if_pos (by simpa using hs)]
    rcases lt_trichotomy u 0 with h1 | h1 | h1 <;>
      rcases lt_trichotomy v 0 with h2 | h2 | h2 <;>
      simp_all [Int.sign_eq_one_of_pos, Int.sign_eq_neg_one_of_neg] <;>
      omega

theorem eqOp_spec {a b : BigInteger} (ha : Wf a) (hb : Wf b) :
    eqOp a b = decide (value a = value b) := by
  unfold eqOp
  rw [Sign_spec ha, Sign_spec hb, cmpAbs_abs_spec ha hb]
  exact sign_if_eq _ _

theorem ltOp_spec {a b : BigInteger} (ha : Wf a) (hb : Wf b) :
    ltOp a b = decide (value a < value b) := by
  unfold ltOp
  rw [Sign_spec ha, Sign_spec hb, cmpAbs_abs_spec ha hb]
  exact sign_if_lt _ _

theorem neOp_spec {a b : BigInteger} (ha : Wf a) (hb : Wf b) :
    neOp a b = decide (value a ≠ value b) := by
  unfold neOp
  rw [eqOp_spec ha hb, ← decide_not]

theorem gtOp_spec {a b : BigInteger} (ha : Wf a) (hb : Wf b) :
    gtOp a b = decide (value b < value a) := by
  unfold gtOp
  rw [eqOp_spec ha hb, ltOp_spec ha hb, ← Bool.decide_or, ← decide_not]
  exact decide_eq_decide.mpr (by omega)

theorem leOp_spec {a b : BigInteger} (ha : Wf a) (hb : Wf b) :
    leOp a b = decide (value a ≤ value b) := by
  unfold leOp
  rw [eqOp_spec ha hb, ltOp_spec ha hb, ← Bool.decide_or]
  exact decide_eq_decide.mpr (by omega)

theorem geOp_spec {a b : BigInteger} (ha : Wf a) (hb : Wf b) :
    geOp a b = decide (value b ≤ value a) := by
  unfold geOp
  rw [ltOp_spec ha hb, ← decide_not]
  exact decide_eq_decide.mpr (by omega)

/-! ## The `int64_t` constructor -/

theorem intDigits_zero (f : Nat) : intDigits f 0 = [] := by
  cases f <;> simp [intDigits]

theorem intDigits_neg : ∀ (f : Nat) (v : Int), intDigits f (-v) = intDigits f v := by
  intro f
  induction f with
  | zero => intro v; rfl
  | succ f ih =>
    intro v
    by_cases hv : v = 0
    · subst hv
      norm_num
    · have hv' : ¬(-v = 0) := by omega
      unfold intDigits
      rw [if_neg hv', if_neg hv]
      have h1 : (-v).tmod internal_base = -(v.tmod internal_base) := by
        rw [Int.tmod_def, Int.tmod_def, Int.neg_tdiv]
        ring
      have h2 : (-v).tdiv internal_base = -(v.tdiv internal_base) :=
        Int.neg_tdiv v internal_base
      rw [h1, h2, Int.natAbs_neg, ih]

theorem intDigits_spec : ∀ (f : Nat) (v : Int), 0 ≤ v → v < 2 ^ f →
    poly (intDigits f v) = v ∧ DigitsInRange (intDigits f v) ∧
      CanonDigits (intDigits f v) ∧ (0 < v → intDigits f v ≠ []) := by
  intro f
  induction f with
  | zero =>
    intro v h0 h1
    have hv : v = 0 := by
      have : v < 1 := by simpa using h1
      omega
    subst hv
    refine ⟨by simp [intDigits], digitsInRange_nil, ?_, by omega⟩
    intro h
    simp [intDigits] at h
  | succ f ih =>
    intro v h0 h1
    by_cases hv : v = 0
    · subst hv
      rw [intDigits_zero]
      exact ⟨by simp, digitsInRange_nil, by intro h; simp at h, by omega⟩
    · unfold intDigits
      rw [if_neg hv]
      have hB : (0:Int) < internal_base := internal_base_pos
      have hmod : v.tmod internal_base = v % internal_base :=
        Int.tmod_eq_emod h0 (le_of_lt hB)
      have hdiv : v.tdiv internal_base = v / internal_base :=
        Int.tdiv_eq_ediv h0 (le_of_lt hB)
      have hmodnn : 0 ≤ v % internal_base := Int.emod_nonneg v (by decide)
      have hmodlt : v % internal_base < internal_base := Int.emod_lt_of_pos v hB
      have hdnn : 0 ≤ v / internal_base := Int.ediv_nonneg h0 (le_of_lt hB)
      have hdlt : v / internal_base < 2 ^ f := by
        rw [Int.ediv_lt_iff_lt_mul hB]
        have hp : (0:Int) ≤ 2 ^ f := by positivity
        have h2 : (2:Int) ^ (f + 1) = 2 ^ f * 2 := by ring
        have h3 : (2:Int) ^ f * 2 ≤ 2 ^ f * internal_base :=
          mul_le_mul_of_nonneg_left (by decide) hp
        linarith
      rw [hdiv] at *
      obtain ⟨ihp, ihr, ihc, ihne⟩ := ih _ hdnn hdlt
      have hcast : ((v.tmod internal_base).natAbs : Int) = v % internal_base := by
        rw [hmod, Int.natAbs_of_nonneg hmodnn]
      refine ⟨?_, ?_, ?_, fun _ => by simp⟩
      · rw [poly_cons, hcast, ihp, Int.emod_add_ediv]
      · exact digitsInRange_cons (hcast ▸ hmodnn) (hcast ▸ hmodlt) ihr
      · by_cases hq : v / internal_base = 0
        · rw [hq, intDigits_zero]
          have hvlt : v < internal_base := by
            by_contra hc
            have : 1 ≤ v / internal_base := by
              rw [Int.le_ediv_iff_mul_le hB]
              omega
            omega
          have : v % internal_base = v := Int.emod_eq_of_lt h0 hvlt
          unfold CanonDigits
          intro hlast
          simp at hlast
          omega
        · have hne : intDigits f (v / internal_base) ≠ [] := ihne (by omega)
          cases hr : intDigits f (v / internal_base) with
          | nil => exact absurd hr hne
          | cons r rs =>
            unfold CanonDigits
            rw [List.getLast?_cons_cons]
            rw [hr] at ihc
            exact ihc

theorem fromInt_zero : fromInt 0 = ⟨[], false⟩ := by
  unfold fromInt
  rw [intDigits_zero]
  rfl

theorem fromInt_spec (v : Int) (hv : v.natAbs ≤ 2 ^ 63) :
    value (fromInt v) = v ∧ Wf (fromInt v) ∧
      (fromInt v).is_negative = decide (v < 0) := by
  have habs : 0 ≤ ((v.natAbs : Int)) := Int.ofNat_nonneg _
  have hlt : ((v.natAbs : Int)) < 2 ^ 64 := by
    have h1 : ((v.natAbs : Int)) ≤ ((2 ^ 63 : Nat) : Int) := by exact_mod_cast hv
    have h2 : (((2:Nat) ^ 63 : Nat) : Int) < 2 ^ 64 := by norm_num
    omega
  obtain ⟨hp, hr, hc, _⟩ := intDigits_spec 64 ((v.natAbs : Int)) habs hlt
  rcases le_or_lt 0 v with hvp | hvn
  · have hvv : ((v.natAbs : Int)) = v := Int.natAbs_of_nonneg hvp
    rw [hvv] at hp hr hc
    refine ⟨?_, ⟨hr, hc⟩, ?_⟩
    · unfold value fromInt
      rw [if_neg (by simp; omega), one_mul]
      exact hp
    · rfl
  · have hvv : ((v.natAbs : Int)) = -v := by
      rw [← Int.natAbs_neg]
      exact Int.natAbs_of_nonneg (by omega)
    rw [hvv] at hp hr hc
    have hdig : intDigits 64 v = intDigits 64 (-v) := (intDigits_neg 64 v).symm
    rw [← hdig] at hp hr hc
    refine ⟨?_, ⟨hr, hc⟩, ?_⟩
    · unfold value fromInt
      rw [if_pos (by simp; omega)]
      rw [hp]
      ring
    · rfl

theorem wf_fromInt (v : Int) (hv : v.natAbs ≤ 2 ^ 63) : Wf (fromInt v) :=
  (fromInt_spec v hv).2.1

theorem value_fromInt (v : Int) (hv : v.natAbs ≤ 2 ^ 63) : value (fromInt v) = v :=
  (fromInt_spec v hv).1

/-- `x < 0` is false whenever the flag is clear, whatever the limbs. -/
theorem ltInt_zero_of_flag_false {x : BigInteger} (h : x.is_negative = false) :
    ltInt x 0 = false := by
  unfold ltInt ltOp
  rw [fromInt_zero]
  by_cases hl : x.digits_.length = 0
  · rw [if_neg (by simp [Sign, hl])]
    simp [Sign, hl]
  · rw [if_pos (by simp [Sign, hl, h])]
    simp [Sign, hl, h]

/-- `x == 0` checks exactly emptiness of the limb vector, whatever the flag. -/
theorem eqInt_zero_eq (x : BigInteger) :
    eqInt x 0 = decide (x.digits_ = []) := by
  unfold eqInt eqOp
  rw [fromInt_zero]
  by_cases hl : x.digits_.length = 0
  · have hx : x.digits_ = [] := List.eq_nil_of_length_eq_zero hl
    rw [if_neg (by simp [Sign, hl])]
    simp [CompareAbsoluteValues, hx, compareLex]
  · have hx : x.digits_ ≠ [] := by
      intro h0
      rw [h0] at hl
      simp at hl
    rw [if_pos (by simp [Sign, hl]; cases x.is_negative <;> simp)]
    simp [hx]

/-! ## Addition -/

theorem tmod_neg_arg (a b : Int) : (-a).tmod b = -(a.tmod b) := by
  rw [Int.tmod_def, Int.tmod_def, Int.neg_tdiv]
  ring

theorem tmod_bounds (a : Int) {b : Int} (hb : 0 < b) :
    -b < a.tmod b ∧ a.tmod b < b := by
  rcases le_or_lt 0 a with h | h
  · have h1 : 0 ≤ a.tmod b := Int.tmod_nonneg b h
    have h2 : a.tmod b < b := Int.tmod_lt_of_pos a hb
    omega
  · have h0 : (0:Int) ≤ -a := by omega
    have h1 : 0 ≤ (-a).tmod b := Int.tmod_nonneg b h0
    have h2 : (-a).tmod b < b := Int.tmod_lt_of_pos (-a) hb
    rw [tmod_neg_arg] at h1 h2
    omega

theorem emod_tmod (n : Int) :
    n.tmod internal_base % internal_base = n % internal_base := by
  rw [Int.tmod_def]
  have h := Int.add_mul_emod_self_left n internal_base (-(n.tdiv internal_base))
  have h2 : n + internal_base * -(n.tdiv internal_base)
      = n - internal_base * n.tdiv internal_base := by ring
  rw [h2] at h
  exact h

theorem RemainderByBase_eq (n : Int) : RemainderByBase n = n % internal_base := by
  unfold RemainderByBase
  obtain ⟨hlo, hhi⟩ := tmod_bounds n internal_base_pos
  rw [Int.tmod_eq_emod (by omega) (le_of_lt internal_base_pos)]
  have h1 := Int.add_mul_emod_self_left (n.tmod internal_base) internal_base 1
  have h2 : n.tmod internal_base + internal_base * 1
      = n.tmod internal_base + internal_base := by ring
  rw [h2] at h1
  rw [h1, emod_tmod]

theorem RemainderByBase_bounds (n : Int) :
    0 ≤ RemainderByBase n ∧ RemainderByBase n < internal_base := by
  rw [RemainderByBase_eq]
  exact ⟨Int.emod_nonneg n (by decide), Int.emod_lt_of_pos n internal_base_pos⟩

theorem poly_headD_tail (ys : List Int) :
    poly ys = ys.headD 0 + internal_base * poly ys.tail := by
  cases ys <;> simp

theorem digitsInRange_headD {ys : List Int} (h : DigitsInRange ys) :
    0 ≤ ys.headD 0 ∧ ys.headD 0 < internal_base := by
  cases ys with
  | nil => exact ⟨le_refl 0, internal_base_pos⟩
  | cons y ys' => simpa using digitsInRange_head h

theorem digitsInRange_tail {ys : List Int} (h : DigitsInRange ys) :
    DigitsInRange ys.tail := by
  cases ys with
  | nil => exact h
  | cons y ys' => exact digitsInRange_of_cons h

theorem addLoop_spec : ∀ (xs : List Int) (fuel : Nat) (ys : List Int) (c s : Int),
    DigitsInRange xs → DigitsInRange ys →
    (s = -1 ∨ s = 0 ∨ s = 1) →
    -1 ≤ c → c ≤ 1 →
    ys.length ≤ xs.length →
    0 ≤ c + poly xs + s * poly ys →
    xs.length + 2 ≤ fuel →
    poly (addLoop fuel s xs ys c) = c + poly xs + s * poly ys ∧
      DigitsInRange (addLoop fuel s xs ys c) := by
  intro xs
  induction xs with
  | nil =>
    intro fuel ys c s hxr hyr hs hc1 hc2 hlen hnn hfuel
    have hys : ys = [] := List.eq_nil_of_length_eq_zero (by simpa using hlen)
    subst hys
    obtain ⟨f1, rfl⟩ : ∃ f1, fuel = f1 + 1 := ⟨fuel - 1, by omega⟩
    simp only [poly_nil, mul_zero, add_zero] at hnn ⊢
    by_cases hc : c = 0
    · subst hc
      unfold addLoop
      rw [if_pos ⟨rfl, rfl⟩]
      exact ⟨by simp, digitsInRange_nil⟩
    · have hc1' : c = 1 := by omega
      subst hc1'
      obtain ⟨f2, rfl⟩ : ∃ f2, f1 = f2 + 1 := ⟨f1 - 1, by omega⟩
      unfold addLoop
      rw [if_neg (by simp)]
      simp only [List.headD_nil, List.tail_nil, mul_zero, add_zero]
      have hr : RemainderByBase 1 = 1 := by decide
      rw [hr]
      have hc' : ((1:Int) - 1).tdiv internal_base = 0 := by decide
      rw [hc']
      unfold addLoop
      rw [if_pos ⟨rfl, rfl⟩]
      refine ⟨by simp, digitsInRange_cons (by decide) (by decide) digitsInRange_nil⟩
  | cons x xs ih =>
    intro fuel ys c s hxr hyr hs hc1 hc2 hlen hnn hfuel
    obtain ⟨f1, rfl⟩ : ∃ f1, fuel = f1 + 1 := ⟨fuel - 1, by omega⟩
    unfold addLoop
    rw [if_neg (by simp)]
    simp only [List.headD_cons, List.tail_cons]
    have hx0 := digitsInRange_head hxr
    have hy0 := digitsInRange_headD hyr
    have hytail := digitsInRange_tail hyr
    have hB := internal_base_pos
    have hsy : s * ys.headD 0 ≥ -(internal_base - 1) ∧
        s * ys.headD 0 ≤ internal_base - 1 := by
      rcases hs with h | h | h <;> subst h <;> constructor <;> omega
    have hd1 : -internal_base ≤ c + x + s * ys.headD 0 := by omega
    have hd2 : c + x + s * ys.headD 0 ≤ 2 * internal_base - 1 := by omega
    obtain ⟨hr1, hr2⟩ := RemainderByBase_bounds (c + x + s * ys.headD 0)
    rw [RemainderByBase_eq] at hr1 hr2
    rw [RemainderByBase_eq]
    have hsub : c + x + s * ys.headD 0 - (c + x + s * ys.headD 0) % internal_base
        = internal_base * ((c + x + s * ys.headD 0) / internal_base) := by
      have := Int.emod_add_ediv (c + x + s * ys.headD 0) internal_base
      omega
    rw [hsub, Int.mul_tdiv_cancel_left _ (by decide : internal_base ≠ 0)]
    have hcb1 : -1 ≤ (c + x + s * ys.headD 0) / internal_base := by
      rw [Int.le_ediv_iff_mul_le hB]
      omega
    have hcb2 : (c + x + s * ys.headD 0) / internal_base ≤ 1 := by
      have : (c + x + s * ys.headD 0) / internal_base < 2 := by
        rw [Int.ediv_lt_iff_lt_mul hB]
        omega
      omega
    have hmod := Int.emod_add_ediv (c + x + s * ys.headD 0) internal_base
    have hkey : internal_base * ((c + x + s * ys.headD 0) / internal_base
        + poly xs + s * poly ys.tail)
        = c + poly (x :: xs) + s * poly ys
          - (c + x + s * ys.headD 0) % internal_base := by
      rw [poly_cons, poly_headD_tail ys]
      linear_combination hmod
    have hnn' : 0 ≤ (c + x + s * ys.headD 0) / internal_base + poly xs
        + s * poly ys.tail := by
      by_contra hcon
      push_neg at hcon
      have hlt : (c + x + s * ys.headD 0) / internal_base + poly xs
          + s * poly ys.tail ≤ -1 := by omega
      have hmul := mul_le_mul_of_nonneg_left hlt (le_of_lt hB)
      have hBneg : internal_base * (-1 : Int) = -internal_base := by ring
      linarith [hnn, hr2, hkey, hmul]
    obtain ⟨ihp, ihr⟩ := ih f1 ys.tail _ s (digitsInRange_of_cons hxr) hytail hs
      hcb1 hcb2
      (by simp only [List.length_tail]; simp only [List.length_cons] at hlen; omega)
      hnn' (by simp only [List.length_cons] at hfuel; omega)
    constructor
    · rw [poly_cons, ihp, poly_cons, poly_headD_tail ys]
      linear_combination hmod
    · exact digitsInRange_cons hr1 hr2 ihr

theorem value_of_flag_false {x : BigInteger} (h : x.is_negative = false) :
    value x = poly x.digits_ := by
  unfold value
  rw [h]
  simp

theorem value_negOp (x : BigInteger) : value (negOp x) = -value x := by
  unfold value negOp
  cases x.is_negative <;> simp

@[simp] theorem negOp_digits (x : BigInteger) : (negOp x).digits_ = x.digits_ := rfl

theorem wf_negOp {x : BigInteger} (h : Wf x) : Wf (negOp x) := h

theorem Sign_cases (b : BigInteger) : Sign b = -1 ∨ Sign b = 0 ∨ Sign b = 1 := by
  unfold Sign
  by_cases h : b.digits_.length = 0
  · simp [h]
  · cases b.is_negative <;> simp [h]

theorem ltInt_zero_spec {x : BigInteger} (hx : Wf x) :
    ltInt x 0 = decide (value x < 0) := by
  unfold ltInt
  have h0 := fromInt_spec 0 (by simp)
  rw [ltOp_spec hx h0.2.1, h0.1]

theorem eqInt_zero_spec {x : BigInteger} (hx : Wf x) :
    eqInt x 0 = decide (value x = 0) := by
  unfold eqInt
  have h0 := fromInt_spec 0 (by simp)
  rw [eqOp_spec hx h0.2.1, h0.1]

theorem neInt_zero_spec {x : BigInteger} (hx : Wf x) :
    neInt x 0 = decide (value x ≠ 0) := by
  unfold neInt
  have h0 := fromInt_spec 0 (by simp)
  rw [neOp_spec hx h0.2.1, h0.1]

theorem length_le_of_cmpAbs_eq {a b : BigInteger}
    (h : CompareAbsoluteValues a b = -1) :
    a.digits_.length ≤ b.digits_.length := by
  unfold CompareAbsoluteValues at h
  by_cases hl : a.digits_.length = b.digits_.length
  · omega
  · rw [if_pos (by simp [hl])] at h
    by_cases hlt : a.digits_.length < b.digits_.length
    · omega
    · rw [if_neg hlt] at h
      exact absurd h (by decide)

theorem addCoreFn_spec {a b : BigInteger}
    (ha : DigitsInRange a.digits_) (hb : DigitsInRange b.digits_)
    (hlen : b.digits_.length ≤ a.digits_.length)
    (hnn : 0 ≤ poly a.digits_ + Sign b * poly b.digits_) :
    poly (addCoreFn a b).digits_ = poly a.digits_ + Sign b * poly b.digits_ ∧
      Wf (addCoreFn a b) ∧ (addCoreFn a b).is_negative = false := by
  obtain ⟨h1, h2⟩ := addLoop_spec a.digits_
    (a.digits_.length + b.digits_.length + 2) b.digits_ 0 (Sign b)
    ha hb (Sign_cases b) (by omega) (by omega) hlen (by simpa using hnn)
    (by omega)
  unfold addCoreFn
  refine ⟨?_, ⟨digitsInRange_removeZeroesL h2, canonDigits_removeZeroesL _⟩, rfl⟩
  simp only [poly_removeZeroesL]
  rw [h1]
  ring

theorem add_ff {a b : BigInteger} (hfa : a.is_negative = false)
    (hfb : b.is_negative = false)
    (ha : DigitsInRange a.digits_) (hb : DigitsInRange b.digits_) :
    poly (add a b).digits_ = poly a.digits_ + poly b.digits_ ∧
      Wf (add a b) ∧ (add a b).is_negative = false := by
  have key : ∀ x y : BigInteger, x.is_negative = false → y.is_negative = false →
      DigitsInRange x.digits_ → DigitsInRange y.digits_ →
      y.digits_.length ≤ x.digits_.length →
      poly (addFull x y).digits_ = poly x.digits_ + poly y.digits_ ∧
        Wf (addFull x y) ∧ (addFull x y).is_negative = false := by
    intro x y hfx hfy hx hy hl
    unfold addFull
    rw [ltInt_zero_of_flag_false hfx, if_neg (by simp)]
    have hsy : Sign y * poly y.digits_ = poly y.digits_ := by
      unfold Sign
      by_cases h : y.digits_.length = 0
      · have h0 : y.digits_ = [] := List.eq_nil_of_length_eq_zero h
        simp [h, h0]
      · simp [h, hfy]
    have hpy := poly_nonneg hy
    have hpx := poly_nonneg hx
    obtain ⟨p1, p2, p3⟩ := addCoreFn_spec hx hy hl (by rw [hsy]; omega)
    exact ⟨by rw [p1, hsy], p2, p3⟩
  unfold add
  by_cases hcmp : CompareAbsoluteValues a b = -1
  · rw [if_pos hcmp]
    obtain ⟨p1, p2, p3⟩ := key b a hfb hfa hb ha (length_le_of_cmpAbs_eq hcmp)
    exact ⟨by rw [p1]; ring, p2, p3⟩
  · rw [if_neg hcmp]
    exact key a b hfa hfb ha hb (length_le_of_cmpAbs_ne hcmp)

theorem add_spec {a b : BigInteger} (ha : Wf a) (hb : Wf b) :
    value (add a b) = value a + value b ∧ Wf (add a b) := by
  have key : ∀ x y : BigInteger, Wf x → Wf y →
      poly y.digits_ ≤ poly x.digits_ →
      y.digits_.length ≤ x.digits_.length →
      value (addFull x y) = value x + value y ∧ Wf (addFull x y) := by
    intro x y hx hy hpoly hlen
    have hax : poly x.digits_ = |value x| := poly_eq_abs_value hx.1
    have hay : poly y.digits_ = |value y| := poly_eq_abs_value hy.1
    unfold addFull
    rw [ltInt_zero_spec hx]
    by_cases hneg : value x < 0
    · rw [if_pos (by simpa using hneg)]
      have hsmy := sign_mul_poly (negOp y)
      rw [negOp_digits] at hsmy
      obtain ⟨p1, p2, p3⟩ := @addCoreFn_spec (negOp x) (negOp y) hx.1 hy.1 hlen
        (by rw [negOp_digits, negOp_digits, hsmy, value_negOp]
            have h1 : value y ≤ |value y| := le_abs_self _
            have h2 : |value x| = -value x := abs_of_neg hneg
            omega)
      rw [negOp_digits, negOp_digits, hsmy] at p1
      constructor
      · rw [value_negOp, value_of_flag_false p3, p1, value_negOp, hax,
          abs_of_neg hneg]
        ring
      · exact wf_negOp p2
    · rw [if_neg (by simpa using hneg)]
      push_neg at hneg
      have hsmy := sign_mul_poly y
      obtain ⟨p1, p2, p3⟩ := addCoreFn_spec hx.1 hy.1 hlen
        (by rw [hsmy]
            have h1 : -|value y| ≤ value y := neg_abs_le _
            omega)
      constructor
      · rw [value_of_flag_false p3, p1, hsmy, hax, abs_of_nonneg hneg]
      · exact p2
  unfold add
  by_cases hcmp : CompareAbsoluteValues a b = -1
  · rw [if_pos hcmp]
    have hcs := cmpAbs_spec ha hb
    rw [hcmp] at hcs
    have hlt : poly a.digits_ < poly b.digits_ := by
      by_contra hc
      push_neg at hc
      rcases lt_or_eq_of_le hc with h | h
      · rw [Int.sign_eq_one_iff_pos.mpr (by omega)] at hcs
        exact absurd hcs (by decide)
      · rw [h] at hcs
        simp at hcs
    have hlen : a.digits_.length ≤ b.digits_.length := length_le_of_cmpAbs_eq hcmp
    obtain ⟨p1, p2⟩ := key b a hb ha (le_of_lt hlt) hlen
    exact ⟨by rw [p1]; ring, p2⟩
  · rw [if_neg hcmp]
    have hcs := cmpAbs_spec ha hb
    have hge : poly b.digits_ ≤ poly a.digits_ := by
      by_contra hc
      push_neg at hc
      rw [Int.sign_eq_neg_one_iff_neg.mpr (by omega)] at hcs
      exact hcmp hcs
    exact key a b ha hb hge (length_le_of_cmpAbs_ne hcmp)

theorem sub_spec {a b : BigInteger} (ha : Wf a) (hb : Wf b) :
    value (sub a b) = value a - value b ∧ Wf (sub a b) := by
  unfold sub
  rw [ltInt_zero_spec ha]
  by_cases hv : value a < 0
  · rw [if_pos (by simpa using hv)]
    obtain ⟨p1, p2⟩ := add_spec (wf_negOp ha) hb
    constructor
    · rw [value_negOp, p1, value_negOp]
      ring
    · exact wf_negOp p2
  · rw [if_neg (by simpa using hv)]
    obtain ⟨p1, p2⟩ := add_spec ha (wf_negOp hb)
    constructor
    · rw [p1, value_negOp]
      ring
    · exact p2

/-! ## Multiplication -/

theorem mulShortLoop_spec : ∀ (xs : List Int) (fuel : Nat) (r c : Int),
    DigitsInRange xs → 0 ≤ r → r ≤ internal_base - 1 →
    0 ≤ c → c ≤ internal_base - 1 →
    xs.length + 2 ≤ fuel →
    poly (mulShortLoop fuel xs r c) = c + poly xs * r ∧
      DigitsInRange (mulShortLoop fuel xs r c) := by
  intro xs
  induction xs with
  | nil =>
    intro fuel r c hxr hr1 hr2 hc1 hc2 hfuel
    obtain ⟨f1, rfl⟩ : ∃ f1, fuel = f1 + 1 := ⟨fuel - 1, by omega⟩
    by_cases hc : c = 0
    · subst hc
      unfold mulShortLoop
      rw [if_pos ⟨rfl, rfl⟩]
      exact ⟨by simp, digitsInRange_nil⟩
    · obtain ⟨f2, rfl⟩ : ∃ f2, f1 = f2 + 1 := ⟨f1 - 1, by omega⟩
      unfold mulShortLoop
      rw [if_neg (by simp [hc])]
      simp only [List.headD_nil, List.tail_nil, zero_mul, add_zero]
      have hm : c.tmod internal_base = c := by
        rw [Int.tmod_eq_emod hc1 (by decide)]
        exact Int.emod_eq_of_lt hc1 (by omega)
      have hd : c.tdiv internal_base = 0 := by
        rw [Int.tdiv_eq_ediv hc1 (by decide)]
        exact Int.ediv_eq_zero_of_lt hc1 (by omega)
      rw [hm, hd]
      unfold mulShortLoop
      rw [if_pos ⟨rfl, rfl⟩]
      exact ⟨by simp, digitsInRange_cons hc1 (by omega) digitsInRange_nil⟩
  | cons x xs ih =>
    intro fuel r c hxr hr1 hr2 hc1 hc2 hfuel
    obtain ⟨f1, rfl⟩ : ∃ f1, fuel = f1 + 1 := ⟨fuel - 1, by omega⟩
    unfold mulShortLoop
    rw [if_neg (by simp)]
    simp only [List.headD_cons, List.tail_cons]
    have hx0 := digitsInRange_head hxr
    have hB := internal_base_pos
    have hxr0 := mul_nonneg hx0.1 hr1
    have hd0 : 0 ≤ c + x * r := by omega
    have hdub : c + x * r ≤ internal_base * internal_base - internal_base := by
      nlinarith [hx0.1, hx0.2, hr1, hr2, hc1, hc2]
    have hm : (c + x * r).tmod internal_base = (c + x * r) % internal_base :=
      Int.tmod_eq_emod hd0 (by decide)
    have hddiv : (c + x * r).tdiv internal_base = (c + x * r) / internal_base :=
      Int.tdiv_eq_ediv hd0 (by decide)
    rw [hm, hddiv]
    have hmod := Int.emod_add_ediv (c + x * r) internal_base
    have hmnn : 0 ≤ (c + x * r) % internal_base := Int.emod_nonneg _ (by decide)
    have hmlt : (c + x * r) % internal_base < internal_base :=
      Int.emod_lt_of_pos _ hB
    have hqnn : 0 ≤ (c + x * r) / internal_base := Int.ediv_nonneg hd0 (le_of_lt hB)
    have hqub : (c + x * r) / internal_base ≤ internal_base - 1 := by
      have hq : (c + x * r) / internal_base < internal_base := by
        rw [Int.ediv_lt_iff_lt_mul hB]
        linarith
      omega
    obtain ⟨ihp, ihr⟩ := ih f1 r _ (digitsInRange_of_cons hxr) hr1 hr2 hqnn hqub
      (by simp only [List.length_cons] at hfuel; omega)
    constructor
    · rw [poly_cons, ihp, poly_cons]
      linear_combination hmod
    · exact digitsInRange_cons hmnn hmlt ihr

theorem MultiplyByShort_spec {x : BigInteger} (r : Int)
    (hx : DigitsInRange x.digits_) (hr1 : 0 ≤ r) (hr2 : r ≤ internal_base - 1) :
    poly (MultiplyByShort x r).digits_ = poly x.digits_ * r ∧
      Wf (MultiplyByShort x r) ∧
      (MultiplyByShort x r).is_negative = ltInt x 0 := by
  obtain ⟨h1, h2⟩ := mulShortLoop_spec x.digits_ (x.digits_.length + 2) r 0
    hx hr1 hr2 (le_refl 0) (by omega) (by omega)
  unfold MultiplyByShort
  refine ⟨?_, ⟨digitsInRange_removeZeroesL h2, canonDigits_removeZeroesL _⟩, rfl⟩
  simp only [poly_removeZeroesL]
  rw [h1]
  ring

theorem value_of_flag_true {x : BigInteger} (h : x.is_negative = true) :
    value x = -poly x.digits_ := by
  unfold value
  rw [h]
  simp

theorem MultiplyByShort_value {x : BigInteger} (r : Int) (hx : Wf x)
    (hr1 : 0 ≤ r) (hr2 : r ≤ internal_base - 1) :
    value (MultiplyByShort x r) = value x * r ∧ Wf (MultiplyByShort x r) := by
  obtain ⟨h1, h2, h3⟩ := MultiplyByShort_spec r hx.1 hr1 hr2
  refine ⟨?_, h2⟩
  rw [ltInt_zero_spec hx] at h3
  by_cases hv : value x < 0
  · have h3' : (MultiplyByShort x r).is_negative = true := by rw [h3]; simp [hv]
    rw [value_of_flag_true h3', h1, poly_eq_abs_value hx.1, abs_of_neg hv]
    ring
  · have h3' : (MultiplyByShort x r).is_negative = false := by rw [h3]; simp [hv]
    rw [value_of_flag_false h3', h1, poly_eq_abs_value hx.1,
      abs_of_nonneg (by omega)]

theorem padZeros_digits (i : Nat) (x : BigInteger) :
    (padZeros i x).digits_ = List.replicate i 0 ++ x.digits_ := rfl

theorem digitsInRange_padZeros {i : Nat} {x : BigInteger}
    (h : DigitsInRange x.digits_) : DigitsInRange (padZeros i x).digits_ := by
  rw [padZeros_digits]
  intro d hd
  rcases List.mem_append.mp hd with h1 | h1
  · have := List.eq_of_mem_replicate h1
    subst this
    exact ⟨le_refl 0, internal_base_pos⟩
  · exact h d h1

theorem mulAccum_spec {a : BigInteger} (hadig : DigitsInRange a.digits_)
    (hla : ltInt a 0 = false) :
    ∀ (ds : List Int) (i : Nat) (acc : BigInteger),
    DigitsInRange ds →
    DigitsInRange acc.digits_ → acc.is_negative = false →
    poly (mulAccum a ds i acc).digits_
        = poly acc.digits_ + poly a.digits_ * internal_base ^ i * poly ds ∧
      DigitsInRange (mulAccum a ds i acc).digits_ ∧
      (mulAccum a ds i acc).is_negative = false := by
  intro ds
  induction ds with
  | nil =>
    intro i acc _ hacc hfl
    unfold mulAccum
    exact ⟨by simp, hacc, hfl⟩
  | cons d ds ih =>
    intro i acc hds hacc hfl
    have hd0 := digitsInRange_head hds
    obtain ⟨m1, m2, m3⟩ := MultiplyByShort_spec d hadig hd0.1 (by omega)
    rw [hla] at m3
    have hpadr : DigitsInRange (padZeros i (MultiplyByShort a d)).digits_ :=
      digitsInRange_padZeros m2.1
    have hpadf : (padZeros i (MultiplyByShort a d)).is_negative = false := m3
    have hpadp : poly (padZeros i (MultiplyByShort a d)).digits_
        = internal_base ^ i * (poly a.digits_ * d) := by
      rw [padZeros_digits, poly_replicate_zero_append, m1]
    obtain ⟨q1, q2, q3⟩ := add_ff hfl hpadf hacc hpadr
    unfold mulAccum
    obtain ⟨r1, r2, r3⟩ := ih (i + 1) _ (digitsInRange_of_cons hds) q2.1 q3
    refine ⟨?_, r2, r3⟩
    rw [r1, q1, hpadp, poly_cons]
    ring

theorem mulPos_spec {a b : BigInteger} (hadig : DigitsInRange a.digits_)
    (hbdig : DigitsInRange b.digits_) (hla : ltInt a 0 = false) :
    poly (mulPos a b).digits_ = poly a.digits_ * poly b.digits_ ∧
      Wf (mulPos a b) ∧ (mulPos a b).is_negative = false := by
  have h0dig : DigitsInRange (fromInt 0).digits_ := by
    rw [fromInt_zero]
    exact digitsInRange_nil
  have h0fl : (fromInt 0).is_negative = false := by rw [fromInt_zero]
  obtain ⟨p1, p2, p3⟩ := mulAccum_spec hadig hla b.digits_ 0 (fromInt 0)
    hbdig h0dig h0fl
  unfold mulPos
  refine ⟨?_, ⟨digitsInRange_removeZeroesL p2, canonDigits_removeZeroesL _⟩, p3⟩
  simp only [poly_removeZeroesL]
  rw [p1, fromInt_zero]
  simp

theorem mulPos_value {a b : BigInteger} (ha : Wf a) (hb : Wf b)
    (hva : 0 ≤ value a) (hvb : 0 ≤ value b) :
    value (mulPos a b) = value a * value b ∧ Wf (mulPos a b) := by
  have hla : ltInt a 0 = false := by
    rw [ltInt_zero_spec ha]
    simp
    omega
  obtain ⟨p1, p2, p3⟩ := mulPos_spec ha.1 hb.1 hla
  refine ⟨?_, p2⟩
  rw [value_of_flag_false p3, p1, poly_eq_abs_value ha.1, poly_eq_abs_value hb.1,
    abs_of_nonneg hva, abs_of_nonneg hvb]

theorem mul_spec {a b : BigInteger} (ha : Wf a) (hb : Wf b) :
    value (mul a b) = value a * value b ∧ Wf (mul a b) := by
  have hfull : ∀ x y : BigInteger, Wf x → Wf y → 0 ≤ value x →
      value (mulFull x y) = value x * value y ∧ Wf (mulFull x y) := by
    intro x y hx hy hvx
    unfold mulFull
    rw [ltInt_zero_spec hy]
    by_cases hvy : value y < 0
    · rw [if_pos (by simpa using hvy)]
      obtain ⟨p1, p2⟩ := mulPos_value hx (wf_negOp hy) hvx
        (by rw [value_negOp]; omega)
      constructor
      · rw [value_negOp, p1, value_negOp]
        ring
      · exact wf_negOp p2
    · rw [if_neg (by simpa using hvy)]
      exact mulPos_value hx hy hvx (by omega)
  unfold mul
  rw [ltInt_zero_spec ha]
  by_cases hva : value a < 0
  · rw [if_pos (by simpa using hva)]
    obtain ⟨p1, p2⟩ := hfull (negOp a) b (wf_negOp ha) hb
      (by rw [value_negOp]; omega)
    constructor
    · rw [value_negOp, p1, value_negOp]
      ring
    · exact wf_negOp p2
  · rw [if_neg (by simpa using hva)]
    exact hfull a b ha hb (by omega)

/-! ## The division digit guess -/

theorem digits_eq_nil_of_value_zero {z : BigInteger} (hz : Wf z)
    (h : value z = 0) : z.digits_ = [] := by
  by_contra hne
  have h1 := poly_pos_of_canon hz.1 hz.2 hne
  have h2 := poly_eq_abs_value hz.1
  rw [h] at h2
  simp at h2
  omega

theorem Sign_of_flag_false_ne_nil {x : BigInteger} (hf : x.is_negative = false)
    (hne : x.digits_ ≠ []) : Sign x = 1 := by
  unfold Sign
  rw [if_neg (by simpa using hne), hf]
  simp

theorem Sign_of_nil {x : BigInteger} (h : x.digits_ = []) : Sign x = 0 := by
  unfold Sign
  rw [h]
  simp

theorem cmpAbs_ne_nil_vs_zeroSingleton {p z : BigInteger} (hw : Wf p)
    (hne : p.digits_ ≠ []) (hz : z.digits_ = [0]) :
    CompareAbsoluteValues p z = 1 := by
  unfold CompareAbsoluteValues
  rw [hz]
  cases hd : p.digits_ with
  | nil => exact absurd hd hne
  | cons d ds =>
    cases ds with
    | nil =>
      rw [if_neg (by simp)]
      have hd0 : d ≠ 0 := by
        have hcan := hw.2
        rw [hd] at hcan
        intro h0
        exact hcan (by rw [h0]; rfl)
      have hdr : 0 ≤ d := by
        have hir := hw.1
        rw [hd] at hir
        exact (digitsInRange_head hir).1
      simp only [List.reverse_cons, List.reverse_nil, List.nil_append]
      unfold compareLex
      rw [if_pos (by simpa using hd0), if_neg (by omega)]
    | cons e es =>
      rw [if_pos (by simp)]
      rw [if_neg (by simp)]

/-- The bisection probe `MultiplyByShort(rhs, m) > lhs` decides
`value rhs * m > poly lhs` for every trailing-remainder shape the division
loop can produce (a canonical state, or the single limb `[0]`). -/
theorem gtOp_probe {rhs lhs : BigInteger} (m : Int) (hr : Wf rhs)
    (hvr : 0 < value rhs) (hm0 : 0 ≤ m) (hm1 : m ≤ internal_base - 1)
    (hlf : lhs.is_negative = false) (hldig : DigitsInRange lhs.digits_)
    (hlc : CanonDigits lhs.digits_ ∨ lhs.digits_ = [0]) :
    gtOp (MultiplyByShort rhs m) lhs
      = decide (poly lhs.digits_ < value rhs * m) := by
  obtain ⟨pv, pw⟩ := MultiplyByShort_value m hr hm0 hm1
  rcases hlc with hc | hc
  · have hwl : Wf lhs := ⟨hldig, hc⟩
    rw [gtOp_spec pw hwl, pv, value_of_flag_false hlf]
  · have hpl : poly lhs.digits_ = 0 := by rw [hc]; simp
    have hsl : Sign lhs = 1 := by
      apply Sign_of_flag_false_ne_nil hlf
      rw [hc]
      simp
    rw [hpl]
    by_cases hm : m = 0
    · subst hm
      have hval : value (MultiplyByShort rhs 0) = 0 := by rw [pv]; ring
      have hdig : (MultiplyByShort rhs 0).digits_ = [] :=
        digits_eq_nil_of_value_zero pw hval
      have hsp : Sign (MultiplyByShort rhs 0) = 0 := Sign_of_nil hdig
      unfold gtOp eqOp ltOp
      rw [hsp, hsl]
      simp
    · have hvm : (0:Int) < value rhs * m := by
        have h1 : 1 ≤ m := by omega
        nlinarith
      have hval : 0 < value (MultiplyByShort rhs m) := by rw [pv]; exact hvm
      have hdne : (MultiplyByShort rhs m).digits_ ≠ [] := by
        intro h0
        have hp0 : poly (MultiplyByShort rhs m).digits_ = 0 := by rw [h0]; rfl
        have h2 := poly_eq_abs_value pw.1
        rw [hp0] at h2
        have h3 := abs_eq_zero.mp h2.symm
        omega
      have pf : (MultiplyByShort rhs m).is_negative = false := by
        obtain ⟨_, _, h3⟩ := MultiplyByShort_spec m hr.1 hm0 hm1
        rw [h3, ltInt_zero_spec hr]
        simp
        omega
      have hsp : Sign (MultiplyByShort rhs m) = 1 :=
        Sign_of_flag_false_ne_nil pf hdne
      have hcab : CompareAbsoluteValues (MultiplyByShort rhs m) lhs = 1 :=
        cmpAbs_ne_nil_vs_zeroSingleton pw hdne hc
      unfold gtOp eqOp ltOp
      rw [hsp, hsl, hcab]
      simp [hvm]

theorem guessLoop_spec : ∀ (fuel : Nat) (l u : Int) (lhs rhs : BigInteger),
    (u - l).toNat ≤ 2 ^ fuel →
    0 ≤ l → l < u → u ≤ internal_base →
    Wf rhs → 0 < value rhs →
    lhs.is_negative = false → DigitsInRange lhs.digits_ →
    (CanonDigits lhs.digits_ ∨ lhs.digits_ = [0]) →
    l * value rhs ≤ poly lhs.digits_ →
    poly lhs.digits_ < u * value rhs →
    guessLoop fuel l u lhs rhs = poly lhs.digits_ / value rhs := by
  intro fuel
  induction fuel with
  | zero =>
    intro l u lhs rhs hfu h0 hlu hub hr hvr hlf hld hlc hlo hhi
    have hu1 : u = l + 1 := by
      simp only [pow_zero] at hfu
      omega
    subst hu1
    unfold guessLoop
    have h1 : l ≤ poly lhs.digits_ / value rhs := by
      rw [Int.le_ediv_iff_mul_le hvr]
      exact hlo
    have h2 : poly lhs.digits_ / value rhs < l + 1 := by
      rw [Int.ediv_lt_iff_lt_mul hvr]
      exact hhi
    omega
  | succ fuel ih =>
    intro l u lhs rhs hfu h0 hlu hub hr hvr hlf hld hlc hlo hhi
    have hpow : (2:Nat) ^ (fuel + 1) = 2 * 2 ^ fuel := by ring
    by_cases hlu1 : l + 1 < u
    · have hm2 : (l + u).tdiv 2 = (l + u) / 2 :=
        Int.tdiv_eq_ediv (by omega) (by omega)
      have hmlo : l < (l + u) / 2 := by omega
      have hmhi : (l + u) / 2 < u := by omega
      show (if l + 1 < u then
          if gtOp (MultiplyByShort rhs ((l + u).tdiv 2)) lhs then
            guessLoop fuel l ((l + u).tdiv 2) lhs rhs
          else guessLoop fuel ((l + u).tdiv 2) u lhs rhs
        else l) = poly lhs.digits_ / value rhs
      rw [if_pos hlu1, hm2,
        gtOp_probe ((l + u) / 2) hr hvr (by omega) (by omega) hlf hld hlc]
      by_cases hp : poly lhs.digits_ < value rhs * ((l + u) / 2)
      · rw [if_pos (by simpa using hp)]
        exact ih l ((l + u) / 2) lhs rhs (by rw [hpow] at hfu; omega) h0 hmlo
          (by omega) hr hvr hlf hld hlc hlo (by linarith)
      · rw [if_neg (by simpa using hp)]
        push_neg at hp
        exact ih ((l + u) / 2) u lhs rhs (by rw [hpow] at hfu; omega) (by omega)
          hmhi hub hr hvr hlf hld hlc (by linarith) hhi
    · show (if l + 1 < u then
          if gtOp (MultiplyByShort rhs ((l + u).tdiv 2)) lhs then
            guessLoop fuel l ((l + u).tdiv 2) lhs rhs
          else guessLoop fuel ((l + u).tdiv 2) u lhs rhs
        else l) = poly lhs.digits_ / value rhs
      rw [if_neg hlu1]
      have hu1 : u = l + 1 := by omega
      subst hu1
      have h1 : l ≤ poly lhs.digits_ / value rhs := by
        rw [Int.le_ediv_iff_mul_le hvr]
        exact hlo
      have h2 : poly lhs.digits_ / value rhs < l + 1 := by
        rw [Int.ediv_lt_iff_lt_mul hvr]
        exact hhi
      omega

theorem GuessDigit_spec {lhs rhs : BigInteger} (hr : Wf rhs) (hvr : 0 < value rhs)
    (hlf : lhs.is_negative = false) (hld : DigitsInRange lhs.digits_)
    (hlc : CanonDigits lhs.digits_ ∨ lhs.digits_ = [0])
    (hhi : poly lhs.digits_ < internal_base * value rhs) :
    GuessDigit lhs rhs = poly lhs.digits_ / value rhs := by
  unfold GuessDigit
  exact guessLoop_spec 64 0 internal_base lhs rhs (by decide) (le_refl 0)
    internal_base_pos (le_refl _) hr hvr hlf hld hlc
    (by simpa using poly_nonneg hld) hhi

/-! ## Long division -/

theorem polyR_append : ∀ (u v : List Int),
    polyR (u ++ v) = polyR u * internal_base ^ v.length + polyR v := by
  intro u v
  induction u with
  | nil => simp
  | cons d ds ih =>
    simp only [List.cons_append, polyR_cons, ih, List.length_append]
    rw [pow_add]
    ring

theorem foldl_horner_acc : ∀ (l : List Int) (acc : Int),
    List.foldl (fun n d => n * internal_base + d) acc l
      = acc * internal_base ^ l.length + polyR l := by
  intro l
  induction l with
  | nil => intro acc; simp
  | cons d ds ih =>
    intro acc
    rw [List.foldl_cons, ih]
    simp only [polyR_cons, List.length_cons]
    ring

theorem poly_reverse_polyR (l : List Int) : poly l.reverse = polyR l := by
  rw [poly_eq_polyR_reverse, List.reverse_reverse]

theorem divStep_sub {t p : BigInteger}
    (htf : t.is_negative = false) (htd : DigitsInRange t.digits_)
    (hpw : Wf p) (hpf : p.is_negative = false)
    (hple : poly p.digits_ ≤ poly t.digits_)
    (hcmp : CompareAbsoluteValues t p ≠ -1) :
    poly (sub t p).digits_ = poly t.digits_ - poly p.digits_ ∧
      Wf (sub t p) ∧ (sub t p).is_negative = false := by
  have hlen := length_le_of_cmpAbs_ne hcmp
  unfold sub
  rw [ltInt_zero_of_flag_false htf, if_neg (by simp)]
  unfold add
  have hcmp2 : CompareAbsoluteValues t (negOp p) = CompareAbsoluteValues t p := rfl
  rw [hcmp2, if_neg hcmp]
  unfold addFull
  rw [ltInt_zero_of_flag_false htf, if_neg (by simp)]
  have hsm := sign_mul_poly (negOp p)
  rw [negOp_digits, value_negOp, value_of_flag_false hpf] at hsm
  obtain ⟨c1, c2, c3⟩ := @addCoreFn_spec t (negOp p) htd hpw.1 hlen
    (by rw [negOp_digits, hsm]; omega)
  rw [negOp_digits, hsm] at c1
  exact ⟨by rw [c1]; ring, c2, c3⟩

theorem divStep_fold {b : BigInteger} (hb : Wf b) (hvb : 0 < value b) :
    ∀ (p : List Int) (qs : List Int) (t : BigInteger),
    DigitsInRange p → DigitsInRange qs →
    t.is_negative = false → DigitsInRange t.digits_ → CanonDigits t.digits_ →
    poly t.digits_ < value b →
    DigitsInRange (p.foldl (divStep b) (qs, t)).1 ∧
      (p.foldl (divStep b) (qs, t)).2.is_negative = false ∧
      DigitsInRange (p.foldl (divStep b) (qs, t)).2.digits_ ∧
      CanonDigits (p.foldl (divStep b) (qs, t)).2.digits_ ∧
      poly (p.foldl (divStep b) (qs, t)).2.digits_ < value b ∧
      polyR (p.foldl (divStep b) (qs, t)).1 * value b
          + poly (p.foldl (divStep b) (qs, t)).2.digits_
        = (polyR qs * value b + poly t.digits_) * internal_base ^ p.length
          + polyR p := by
  intro p
  induction p with
  | nil =>
    intro qs t hp hqs htf htd htc htlt
    simp only [List.foldl_nil]
    exact ⟨hqs, htf, htd, htc, htlt, by simp⟩
  | cons d p2 ih =>
    intro qs t hp hqs htf htd htc htlt
    rw [List.foldl_cons]
    have hd0 := digitsInRange_head hp
    set tr : BigInteger := ⟨d :: t.digits_, t.is_negative⟩ with htrdef
    have htrdig : tr.digits_ = d :: t.digits_ := rfl
    have htrf : tr.is_negative = false := htf
    have htrd : DigitsInRange tr.digits_ := by
      rw [htrdig]
      exact digitsInRange_cons hd0.1 hd0.2 htd
    have htrc : CanonDigits tr.digits_ ∨ tr.digits_ = [0] := by
      cases hcase : t.digits_ with
      | nil =>
        by_cases hdz : d = 0
        · right
          rw [htrdig, hcase, hdz]
        · left
          unfold CanonDigits
          rw [htrdig, hcase]
          intro hlast
          simp at hlast
          exact hdz hlast
      | cons e es =>
        left
        unfold CanonDigits
        rw [htrdig, hcase, List.getLast?_cons_cons]
        have hc2 := htc
        rw [hcase] at hc2
        exact hc2
    have hT : poly tr.digits_ = d + internal_base * poly t.digits_ := by
      rw [htrdig]
      simp
    have hTnn : 0 ≤ poly tr.digits_ := poly_nonneg htrd
    have hTlt : poly tr.digits_ < internal_base * value b := by
      rw [hT]
      have hB := internal_base_pos
      nlinarith [hd0.1, hd0.2, htlt, poly_nonneg htd]
    have hq := GuessDigit_spec hb hvb htrf htrd htrc hTlt
    set q := GuessDigit tr b with hqdef
    have hq0 : 0 ≤ q := by
      rw [hq]
      exact Int.ediv_nonneg hTnn (le_of_lt hvb)
    have hqB : q ≤ internal_base - 1 := by
      have hqlt : q < internal_base := by
        rw [hq, Int.ediv_lt_iff_lt_mul hvb]
        linarith
      omega
    obtain ⟨pv, pw⟩ := MultiplyByShort_value q hb hq0 hqB
    have hpf : (MultiplyByShort b q).is_negative = false := by
      obtain ⟨_, _, h3⟩ := MultiplyByShort_spec q hb.1 hq0 hqB
      rw [h3, ltInt_zero_spec hb]
      simp
      omega
    have hprodpoly : poly (MultiplyByShort b q).digits_ = value b * q := by
      rw [poly_eq_abs_value pw.1, pv,
        abs_of_nonneg (mul_nonneg (le_of_lt hvb) hq0)]
    have hqle : value b * q ≤ poly tr.digits_ := by
      rw [hq]
      have hed := Int.emod_def (poly tr.digits_) (value b)
      have hen := Int.emod_nonneg (poly tr.digits_) (by omega : value b ≠ 0)
      omega
    have hcmp : CompareAbsoluteValues tr (MultiplyByShort b q) ≠ -1 := by
      rcases htrc with hcanon | hzero
      · have hwtr : Wf tr := ⟨htrd, hcanon⟩
        rw [cmpAbs_spec hwtr pw]
        intro hcon
        rw [Int.sign_eq_neg_one_iff_neg] at hcon
        rw [hprodpoly] at hcon
        omega
      · have hT0 : poly tr.digits_ = 0 := by rw [hzero]; simp
        have hqz : q = 0 := by
          rw [hq, hT0]
          simp
        have hpd : (MultiplyByShort b q).digits_ = [] := by
          apply digits_eq_nil_of_value_zero pw
          rw [pv, hqz]
          ring
        unfold CompareAbsoluteValues
        rw [hzero, hpd]
        decide
    obtain ⟨s1, s2, s3⟩ := divStep_sub htrf htrd pw hpf
      (by rw [hprodpoly]; exact hqle) hcmp
    have hrem : poly (sub tr (MultiplyByShort b q)).digits_
        = poly tr.digits_ - value b * q := by rw [s1, hprodpoly]
    have hremlt : poly (sub tr (MultiplyByShort b q)).digits_ < value b := by
      rw [hrem, hq]
      have hed := Int.emod_def (poly tr.digits_) (value b)
      have hel := Int.emod_lt_of_pos (poly tr.digits_) hvb
      omega
    have hqs2 : DigitsInRange (qs ++ [q]) := by
      intro e he
      rcases List.mem_append.mp he with h | h
      · exact hqs e h
      · simp at h
        subst h
        exact ⟨hq0, by omega⟩
    have hstep : divStep b (qs, t) d
        = (qs ++ [q], sub tr (MultiplyByShort b q)) := rfl
    rw [hstep]
    obtain ⟨r1, r2, r3, r4, r5, r6⟩ := ih (qs ++ [q])
      (sub tr (MultiplyByShort b q)) (digitsInRange_of_cons hp) hqs2 s3 s2.1
      s2.2 hremlt
    refine ⟨r1, r2, r3, r4, r5, ?_⟩
    rw [r6]
    have happ : polyR (qs ++ [q]) = polyR qs * internal_base + q := by
      rw [polyR_append]
      simp
    rw [happ, hrem, hT]
    simp only [List.length_cons, polyR_cons, pow_succ]
    ring

theorem divPos_spec {a b : BigInteger} (hadig : DigitsInRange a.digits_)
    (hb : Wf b) (hvb : 0 < value b) :
    value (divPos a b) = poly a.digits_ / value b ∧ Wf (divPos a b) ∧
      (divPos a b).is_negative = false := by
  have h0d : (fromInt 0).digits_ = [] := by rw [fromInt_zero]
  have h0f : (fromInt 0).is_negative = false := by rw [fromInt_zero]
  set res := a.digits_.reverse.foldl (divStep b) (([] : List Int), fromInt 0)
    with hres
  obtain ⟨r1, r2, r3, r4, r5, r6⟩ := divStep_fold hb hvb a.digits_.reverse []
    (fromInt 0) (digitsInRange_reverse hadig) digitsInRange_nil h0f
    (by rw [h0d]; exact digitsInRange_nil)
    (by rw [h0d]; intro h; simp at h)
    (by rw [h0d]; simpa using hvb)
  rw [h0d] at r6
  simp only [polyR_nil, poly_nil, zero_mul, add_zero, zero_add] at r6
  rw [← poly_eq_polyR_reverse] at r6
  have hdig : (divPos a b).digits_ = removeZeroesL res.1.reverse := rfl
  have hfl : (divPos a b).is_negative = false := rfl
  refine ⟨?_, ⟨?_, ?_⟩, hfl⟩
  · rw [value_of_flag_false hfl, hdig, poly_removeZeroesL, poly_reverse_polyR]
    exact ((Int.ediv_emod_unique hvb).mpr
      ⟨by linarith [r6], poly_nonneg r3, r5⟩).1.symm
  · rw [hdig]
    exact digitsInRange_removeZeroesL (digitsInRange_reverse r1)
  · rw [hdig]
    exact canonDigits_removeZeroesL _

theorem divFull_spec {a b : BigInteger} (ha : Wf a) (hva : 0 ≤ value a)
    (hb : Wf b) (hvb : value b ≠ 0) :
    value (divFull a b) = (value a).tdiv (value b) ∧ Wf (divFull a b) := by
  unfold divFull
  rw [ltInt_zero_spec hb]
  by_cases hneg : value b < 0
  · rw [if_pos (by simpa using hneg)]
    have hnb : 0 < value (negOp b) := by rw [value_negOp]; omega
    obtain ⟨p1, p2, p3⟩ := divPos_spec ha.1 (wf_negOp hb) hnb
    constructor
    · rw [value_negOp, p1, value_negOp, poly_eq_abs_value ha.1,
        abs_of_nonneg hva, ← Int.tdiv_eq_ediv hva (by omega), Int.tdiv_neg]
      ring
    · exact wf_negOp p2
  · rw [if_neg (by simpa using hneg)]
    have hbp : 0 < value b := by omega
    obtain ⟨p1, p2, p3⟩ := divPos_spec ha.1 hb hbp
    constructor
    · rw [p1, poly_eq_abs_value ha.1, abs_of_nonneg hva,
        ← Int.tdiv_eq_ediv hva (by omega)]
    · exact p2

theorem divTotal_spec {a b : BigInteger} (ha : Wf a) (hb : Wf b)
    (hvb : value b ≠ 0) :
    value (divTotal a b) = (value a).tdiv (value b) ∧ Wf (divTotal a b) := by
  unfold divTotal
  rw [ltInt_zero_spec ha]
  by_cases hneg : value a < 0
  · rw [if_pos (by simpa using hneg)]
    obtain ⟨p1, p2⟩ := divFull_spec (wf_negOp ha)
      (by rw [value_negOp]; omega) hb hvb
    constructor
    · rw [value_negOp, p1, value_negOp, Int.neg_tdiv]
      ring
    · exact wf_negOp p2
  · rw [if_neg (by simpa using hneg)]
    exact divFull_spec ha (by omega) hb hvb

theorem divOp_ok {a b : BigInteger} (hb : Wf b) (hvb : value b ≠ 0) :
    divOp a b = .ok (divTotal a b) := by
  unfold divOp
  rw [eqInt_zero_spec hb]
  simp [hvb]

theorem divOp_spec {a b : BigInteger} (ha : Wf a) (hb : Wf b)
    (hvb : value b ≠ 0) :
    divOp a b = .ok (divTotal a b) ∧
      value (divTotal a b) = (value a).tdiv (value b) ∧ Wf (divTotal a b) := by
  exact ⟨divOp_ok hb hvb, (divTotal_spec ha hb hvb).1, (divTotal_spec ha hb hvb).2⟩

theorem divOp_zero (a b : BigInteger) (hbe : b.digits_ = []) :
    divOp a b = .error .divZero := by
  unfold divOp
  rw [eqInt_zero_eq, hbe]
  simp

/-! ## The `int64_t` conversion -/

theorem wrap64_id {n : Int} (h1 : -(2 ^ 63) ≤ n) (h2 : n < 2 ^ 63) :
    wrap64 n = n := by
  unfold wrap64
  have h3 : 0 ≤ n + 2 ^ 63 := by omega
  have h4 : n + 2 ^ 63 < 2 ^ 64 := by omega
  rw [Int.emod_eq_of_lt h3 h4]
  omega

theorem castLoop_nil (r pw : Int) : castLoop [] r pw = r := rfl

theorem castLoop_cons (d : Int) (ds : List Int) (r pw : Int) :
    castLoop (d :: ds) r pw
      = castLoop ds (wrap64 (r + wrap64 (d * pw)))
          (if leOp (mul (fromInt pw) (fromInt internal_base))
              (fromInt 9223372036854775807) = true
            then pw * internal_base else pw) := rfl

theorem castPwStep1 :
    (if leOp (mul (fromInt 1) (fromInt internal_base))
        (fromInt 9223372036854775807) = true
      then (1:Int) * internal_base else 1) = internal_base := by decide

theorem castPwStep2 :
    (if leOp (mul (fromInt internal_base) (fromInt internal_base))
        (fromInt 9223372036854775807) = true
      then internal_base * internal_base else internal_base)
      = internal_base * internal_base := by decide

theorem length_le_three_of_poly_le {l : List Int} (hr : DigitsInRange l)
    (hc : CanonDigits l) (hle : poly l ≤ 2 ^ 63) : l.length ≤ 3 := by
  by_contra hlen
  push_neg at hlen
  have hne : l ≠ [] := by
    intro h0
    rw [h0] at hlen
    simp at hlen
  have h1 := poly_lower_of_canon hr hc hne
  have h2 : internal_base ^ 3 ≤ internal_base ^ (l.length - 1) :=
    pow_le_pow_right₀ (by decide) (by omega)
  have h3 : (internal_base:Int) ^ 3 = 1000000000000000000000000000 := by
    norm_num [internal_base]
  omega

theorem castLoop_eq {l : List Int} (hr : DigitsInRange l) (hlen : l.length ≤ 3)
    (hle : poly l ≤ 2 ^ 63) : castLoop l 0 1 = wrap64 (poly l) := by
  have hB : internal_base = 1000000000 := rfl
  rcases l with _ | ⟨d0, _ | ⟨d1, _ | ⟨d2, _ | ⟨d3, rest⟩⟩⟩⟩
  · rw [castLoop_nil]
    simp only [poly_nil]
    rw [wrap64_id (by omega) (by omega)]
  · obtain ⟨hd00, hd01⟩ := digitsInRange_head hr
    have b0 : -(2 ^ 63) ≤ d0 ∧ d0 < 2 ^ 63 := by rw [hB] at hd01; omega
    rw [castLoop_cons, castPwStep1, mul_one, castLoop_nil,
      @wrap64_id d0 b0.1 b0.2, zero_add]
    congr 1
    simp only [poly_cons, poly_nil]
    ring
  · obtain ⟨hd00, hd01⟩ := digitsInRange_head hr
    obtain ⟨hd10, hd11⟩ := digitsInRange_head (digitsInRange_of_cons hr)
    have b0 : -(2 ^ 63) ≤ d0 ∧ d0 < 2 ^ 63 := by rw [hB] at hd01; omega
    have b1 : -(2 ^ 63) ≤ d1 * internal_base ∧ d1 * internal_base < 2 ^ 63 := by
      rw [hB] at hd11 ⊢
      omega
    rw [castLoop_cons, castPwStep1, mul_one, castLoop_cons, castPwStep2,
      castLoop_nil, @wrap64_id d0 b0.1 b0.2, zero_add,
      @wrap64_id d0 b0.1 b0.2, @wrap64_id (d1 * internal_base) b1.1 b1.2]
    congr 1
    simp only [poly_cons, poly_nil]
    ring
  · obtain ⟨hd00, hd01⟩ := digitsInRange_head hr
    obtain ⟨hd10, hd11⟩ := digitsInRange_head (digitsInRange_of_cons hr)
    obtain ⟨hd20, hd21⟩ := digitsInRange_head
      (digitsInRange_of_cons (digitsInRange_of_cons hr))
    simp only [poly_cons, poly_nil] at hle
    rw [hB] at hle
    have b0 : -(2 ^ 63) ≤ d0 ∧ d0 < 2 ^ 63 := by rw [hB] at hd01; omega
    have b1 : -(2 ^ 63) ≤ d1 * internal_base ∧ d1 * internal_base < 2 ^ 63 := by
      rw [hB] at hd11 ⊢
      omega
    have b2 : -(2 ^ 63) ≤ d0 + d1 * internal_base ∧
        d0 + d1 * internal_base < 2 ^ 63 := by
      rw [hB] at hd01 hd11 ⊢
      omega
    have b3 : -(2 ^ 63) ≤ d2 * (internal_base * internal_base) ∧
        d2 * (internal_base * internal_base) < 2 ^ 63 := by
      rw [hB] at hd01 hd11 hd21 ⊢
      omega
    rw [castLoop_cons, castPwStep1, mul_one, castLoop_cons, castPwStep2,
      castLoop_cons, castLoop_nil, @wrap64_id d0 b0.1 b0.2, zero_add,
      @wrap64_id d0 b0.1 b0.2, @wrap64_id (d1 * internal_base) b1.1 b1.2,
      @wrap64_id (d0 + d1 * internal_base) b2.1 b2.2,
      @wrap64_id (d2 * (internal_base * internal_base)) b3.1 b3.2]
    congr 1
    simp only [poly_cons, poly_nil]
    ring
  · exfalso
    simp at hlen

theorem toInt64_spec {x : BigInteger} (hx : Wf x) :
    ((value x < -(2 ^ 63) ∨ 2 ^ 63 - 1 < value x) →
      toInt64 x = .error .overflow) ∧
    (-(2 ^ 63) ≤ value x → value x ≤ 2 ^ 63 - 1 →
      toInt64 x = .ok (value x)) := by
  have hMAX := fromInt_spec 9223372036854775807 (by norm_num)
  have hMIN := fromInt_spec (-9223372036854775808) (by norm_num)
  have hgt : gtInt x 9223372036854775807
      = decide ((9223372036854775807:Int) < value x) := by
    unfold gtInt
    rw [gtOp_spec hx hMAX.2.1, hMAX.1]
  have hlt : ltInt x (-9223372036854775808)
      = decide (value x < -9223372036854775808) := by
    unfold ltInt
    rw [ltOp_spec hx hMIN.2.1, hMIN.1]
  constructor
  · intro hrange
    unfold toInt64
    rw [hgt, hlt, if_pos (by simp; omega)]
  · intro h1 h2
    unfold toInt64
    rw [hgt, hlt, if_neg (by simp; omega)]
    congr 1
    have hple : poly x.digits_ ≤ 2 ^ 63 := by
      rw [poly_eq_abs_value hx.1]
      exact abs_le.mpr ⟨by omega, by omega⟩
    have hlen3 := length_le_three_of_poly_le hx.1 hx.2 hple
    rw [castLoop_eq hx.1 hlen3 hple]
    by_cases hp : poly x.digits_ < 2 ^ 63
    · rw [wrap64_id (by have := poly_nonneg hx.1; omega) hp, mul_comm,
        sign_mul_poly]
      exact wrap64_id (by omega) (by omega)
    · have hpe : poly x.digits_ = 2 ^ 63 := by omega
      have hvx : value x = -(2 ^ 63) := by
        have habs := poly_eq_abs_value hx.1
        rw [hpe] at habs
        rcases abs_cases (value x) with ⟨hc1, hc2⟩ | ⟨hc1, hc2⟩ <;> omega
      have hsign : Sign x = -1 := by
        rw [Sign_spec hx, hvx]
        exact Int.sign_eq_neg_one_of_neg (by omega)
      rw [hpe, hsign, hvx]
      decide

/-! ## The unsigned-modulus remainder -/

theorem modOp_spec {a : BigInteger} (ha : Wf a) (m : Nat) (hm0 : 0 < m)
    (hm1 : (m:Int) < 2 ^ 32) :
    modOp a m = .ok (value a % (m:Int)) ∧ 0 ≤ value a % (m:Int) ∧
      value a % (m:Int) < m := by
  have hmabs : ((m:Int)).natAbs ≤ 2 ^ 63 := by
    rw [Int.natAbs_ofNat]
    have hm2 : m < 2 ^ 32 := by exact_mod_cast hm1
    omega
  obtain ⟨hmv, hmw, _⟩ := fromInt_spec (m:Int) hmabs
  have hmpos : (0:Int) < (m:Int) := by exact_mod_cast hm0
  have hvm : value (fromInt (m:Int)) ≠ 0 := by rw [hmv]; omega
  obtain ⟨q1, q2⟩ := divTotal_spec ha hmw hvm
  obtain ⟨mu1, mu2⟩ := mul_spec q2 hmw
  obtain ⟨s1, s2⟩ := sub_spec ha mu2
  have hd : value (sub a (mul (divTotal a (fromInt (m:Int))) (fromInt (m:Int))))
      = (value a).tmod (m:Int) := by
    rw [s1, mu1, q1, hmv, Int.tmod_def]
    ring
  obtain ⟨htb1, htb2⟩ := tmod_bounds (value a) hmpos
  have hok := (toInt64_spec s2).2 (by rw [hd]; omega) (by rw [hd]; omega)
  rw [hd] at hok
  have e1 : modOp a m
      = match toInt64 (sub a (mul (divTotal a (fromInt (m:Int)))
          (fromInt (m:Int)))) with
        | .error e => .error e
        | .ok d => .ok ((d + (m:Int)).tmod (m:Int)) := by
    unfold modOp divInt
    rw [divOp_ok hmw hvm]
  have e2 : modOp a m = .ok (((value a).tmod (m:Int) + (m:Int)).tmod (m:Int)) := by
    rw [e1, hok]
  have e3 : ((value a).tmod (m:Int) + (m:Int)).tmod (m:Int)
      = value a % (m:Int) := by
    rw [Int.tmod_eq_emod (by omega) (by omega)]
    have h2 := Int.add_mul_emod_self_left ((value a).tmod (m:Int)) (m:Int) 1
    rw [mul_one] at h2
    rw [h2, Int.tmod_def]
    have h3 := Int.add_mul_emod_self_left (value a) (m:Int)
      (-((value a).tdiv (m:Int)))
    have h4 : value a + (m:Int) * -((value a).tdiv (m:Int))
        = value a - (m:Int) * (value a).tdiv (m:Int) := by ring
    rw [h4] at h3
    rw [h3]
  refine ⟨by rw [e2, e3], Int.emod_nonneg _ (by omega), Int.emod_lt_of_pos _ hmpos⟩

/-! ## Base conversion: parsing -/

theorem CharToDigit_DigitToChar {d : Int} (h0 : 0 ≤ d) (h1 : d < 36) :
    CharToDigit (DigitToChar d) = d := by
  unfold CharToDigit DigitToChar
  by_cases hd : d < 10
  · rw [if_pos hd, if_pos (by omega)]
    omega
  · rw [if_neg hd, if_neg (by omega), if_pos (by omega)]
    omega

theorem DigitToChar_ne_minus {d : Int} (h0 : 0 ≤ d) (h1 : d < 36) :
    DigitToChar d ≠ 45 := by
  unfold DigitToChar
  by_cases hd : d < 10
  · rw [if_pos hd]
    omega
  · rw [if_neg hd]
    omega

theorem CharToDigit_minus : CharToDigit 45 = -1 := by decide

theorem ne_minus_of_validDigit {c : Int} (h : 0 ≤ CharToDigit c) :
    c ≠ 45 := by
  intro hc
  rw [hc, CharToDigit_minus] at h
  omega

theorem validateFrom_none_of_valid {base : Int} :
    ∀ (l : List Int) (i : Nat),
    (∀ c ∈ l, 0 ≤ CharToDigit c ∧ CharToDigit c < base) →
    validateFrom base i l = none := by
  intro l
  induction l with
  | nil => intro i _; rfl
  | cons c cs ih =>
    intro i h
    have hc := h c (List.mem_cons_self _ _)
    unfold validateFrom
    by_cases hskip : i = 0 ∧ c = 45
    · rw [if_pos hskip]
      exact ih (i + 1) (fun e he => h e (List.mem_cons_of_mem _ he))
    · rw [if_neg hskip, if_neg (by omega)]
      exact ih (i + 1) (fun e he => h e (List.mem_cons_of_mem _ he))

theorem validateFrom_none_minus {base : Int} (l : List Int)
    (h : ∀ c ∈ l, 0 ≤ CharToDigit c ∧ CharToDigit c < base) :
    validateFrom base 0 (45 :: l) = none := by
  unfold validateFrom
  rw [if_pos ⟨rfl, rfl⟩]
  exact validateFrom_none_of_valid l 1 h

theorem accumLoop_spec {base : Int} (hb2 : 2 ≤ base) (hb36 : base ≤ 36) :
    ∀ (l : List Int) (res pw : BigInteger),
    (∀ c ∈ l, c = 45 ∨ (0 ≤ CharToDigit c ∧ CharToDigit c < base)) →
    Wf res → Wf pw →
    value (accumLoop base l res pw)
        = value res + value pw * lsfVal base (l.filter (fun c => c ≠ 45)) ∧
      Wf (accumLoop base l res pw) := by
  intro l
  induction l with
  | nil =>
    intro res pw _ hres hpw
    unfold accumLoop
    exact ⟨by simp [lsfVal], hres⟩
  | cons c cs ih =>
    intro res pw h hres hpw
    have hBlit : internal_base = 1000000000 := rfl
    by_cases hc : c = 45
    · unfold accumLoop
      rw [if_pos hc]
      obtain ⟨p1, p2⟩ := ih res pw (fun e he => h e (List.mem_cons_of_mem _ he))
        hres hpw
      refine ⟨?_, p2⟩
      rw [p1]
      congr 2
      rw [List.filter_cons_of_neg (by simp [hc])]
    · have hcv : 0 ≤ CharToDigit c ∧ CharToDigit c < base := by
        rcases h c (List.mem_cons_self _ _) with h1 | h1
        · exact absurd h1 hc
        · exact h1
      unfold accumLoop
      rw [if_neg hc]
      obtain ⟨m1, m2⟩ := MultiplyByShort_value (CharToDigit c) hpw hcv.1
        (by omega)
      obtain ⟨a1, a2⟩ := add_spec hres m2
      obtain ⟨b1, b2⟩ := MultiplyByShort_value base hpw (by omega) (by omega)
      obtain ⟨p1, p2⟩ := ih (add res (MultiplyByShort pw (CharToDigit c)))
        (MultiplyByShort pw base)
        (fun e he => h e (List.mem_cons_of_mem _ he)) a2 b2
      refine ⟨?_, p2⟩
      rw [p1, a1, m1, b1]
      rw [List.filter_cons_of_pos (by simp [hc])]
      simp only [lsfVal]
      ring

theorem FromString_ok {base : Int} (hb2 : 2 ≤ base) (hb36 : base ≤ 36)
    (m ds : List Int) (hm : m = [] ∨ m = [45])
    (hds : ∀ c ∈ ds, 0 ≤ CharToDigit c ∧ CharToDigit c < base)
    (hne : ds ≠ []) :
    ∃ y, FromString (m ++ ds) base = .ok y ∧ Wf y ∧
      value y = (if m = [45] then -1 else 1) * lsfVal base ds.reverse := by
  have h0 := fromInt_spec 0 (by simp)
  have h1 := fromInt_spec 1 (by simp)
  have hrev : (m ++ ds).reverse = ds.reverse ++ m := by
    rcases hm with h | h <;> subst h <;> simp
  have hvalid2 : ∀ c ∈ ds.reverse ++ m,
      c = 45 ∨ (0 ≤ CharToDigit c ∧ CharToDigit c < base) := by
    intro c hc
    rcases List.mem_append.mp hc with h | h
    · exact Or.inr (hds c (List.mem_reverse.mp h))
    · rcases hm with hm' | hm' <;> subst hm'
      · cases h
      · simp at h
        exact Or.inl h
  obtain ⟨acc1, acc2⟩ := accumLoop_spec hb2 hb36 (ds.reverse ++ m)
    (fromInt 0) (fromInt 1) hvalid2 h0.2.1 h1.2.1
  have hfilter : (ds.reverse ++ m).filter (fun c => c ≠ 45) = ds.reverse := by
    rw [List.filter_append]
    have hf1 : ds.reverse.filter (fun c => c ≠ 45) = ds.reverse := by
      apply List.filter_eq_self.mpr
      intro c hc
      simpa using ne_minus_of_validDigit (hds c (List.mem_reverse.mp hc)).1
    have hf2 : m.filter (fun c => c ≠ 45) = [] := by
      rcases hm with h | h <;> subst h <;> simp
    rw [hf1, hf2, List.append_nil]
  rw [hfilter, h0.1, h1.1] at acc1
  unfold FromString
  rw [if_neg (by omega), hrev]
  rcases hm with hm' | hm' <;> subst hm'
  · cases ds with
    | nil => exact absurd rfl hne
    | cons c cs =>
      have hcvalid := hds c (List.mem_cons_self _ _)
      have hrw : validateFrom base 0 ([] ++ c :: cs) = none := by
        simp only [List.nil_append]
        exact validateFrom_none_of_valid _ 0 hds
      simp only [List.nil_append] at hrw ⊢
      rw [hrw]
      simp only [List.headD_cons]
      rw [if_neg (ne_minus_of_validDigit hcvalid.1)]
      refine ⟨_, rfl, acc2, ?_⟩
      rw [acc1]
      simp
  · have hrw : validateFrom base 0 ([45] ++ ds) = none := by
      simp only [List.cons_append, List.nil_append]
      exact validateFrom_none_minus ds hds
    simp only [List.cons_append, List.nil_append] at hrw ⊢
    rw [hrw]
    simp only [List.headD_cons, if_true]
    refine ⟨_, rfl, wf_negOp acc2, ?_⟩
    rw [value_negOp, acc1]
    norm_num

/-! ## Base conversion: rendering -/

theorem absOp_digits (x : BigInteger) : (absOp x).digits_ = x.digits_ := rfl

theorem value_absOp {x : BigInteger} (hx : Wf x) :
    value (absOp x) = |value x| := by
  have hf : (absOp x).is_negative = false := rfl
  rw [value_of_flag_false hf, absOp_digits, poly_eq_abs_value hx.1]

theorem toStringLoop_spec {base : Int} (hb2 : 2 ≤ base) (hb36 : base ≤ 36) :
    ∀ (fuel : Nat) (temp : BigInteger),
    Wf temp → 0 ≤ value temp →
    value temp < 2 ^ fuel →
    ∃ cs, toStringLoop base fuel temp = .ok cs ∧
      (∀ c ∈ cs, 0 ≤ CharToDigit c ∧ CharToDigit c < base) ∧
      lsfVal base cs = value temp ∧
      (0 < value temp → cs ≠ []) ∧
      (value temp = 0 → cs = []) := by
  have hBlit : internal_base = 1000000000 := rfl
  have hbabs : (base).natAbs ≤ 2 ^ 63 := by
    have h1 : base.natAbs ≤ 36 := by
      rcases Int.natAbs_eq base with h | h <;> omega
    omega
  intro fuel
  induction fuel with
  | zero =>
    intro temp hw hvnn hlt
    have hv0 : value temp = 0 := by
      simp only [pow_zero] at hlt
      omega
    refine ⟨[], rfl, ?_, ?_, ?_, ?_⟩
    · intro c hc
      cases hc
    · simp [lsfVal, hv0]
    · omega
    · intro h
      rfl
  | succ fuel ih =>
    intro temp hw hvnn hlt
    by_cases hv : value temp = 0
    · have hne : neInt temp 0 = false := by
        rw [neInt_zero_spec hw]
        simp [hv]
      refine ⟨[], ?_, ?_, ?_, ?_, ?_⟩
      · unfold toStringLoop
        rw [hne, if_neg (by simp)]
      · intro c hc
        cases hc
      · simp [lsfVal, hv]
      · omega
      · intro h
        rfl
    · have hne : neInt temp 0 = true := by
        rw [neInt_zero_spec hw]
        simp [hv]
      obtain ⟨hbv, hbw, _⟩ := fromInt_spec base hbabs
      have hbne : value (fromInt base) ≠ 0 := by rw [hbv]; omega
      have hdiv := @divOp_ok temp (fromInt base) hbw hbne
      obtain ⟨q1, q2⟩ := divTotal_spec hw hbw hbne
      rw [hbv] at q1
      obtain ⟨mspoly, msw⟩ := MultiplyByShort_value base q2 (by omega) (by omega)
      obtain ⟨sub1, sub2⟩ := sub_spec hw msw
      have hdval : value (sub temp
          (MultiplyByShort (divTotal temp (fromInt base)) base))
          = value temp % base := by
        rw [sub1, mspoly, q1, Int.tdiv_eq_ediv hvnn (by omega), Int.emod_def]
        ring
      have hdnn : 0 ≤ value temp % base := Int.emod_nonneg _ (by omega)
      have hdlt : value temp % base < base := Int.emod_lt_of_pos _ (by omega)
      have hok := (toInt64_spec sub2).2 (by rw [hdval]; omega)
        (by rw [hdval]; omega)
      rw [hdval] at hok
      have hqnn : 0 ≤ value (divTotal temp (fromInt base)) := by
        rw [q1]
        exact Int.tdiv_nonneg hvnn (by omega)
      have hqlt : value (divTotal temp (fromInt base)) < 2 ^ fuel := by
        rw [q1, Int.tdiv_eq_ediv hvnn (by omega),
          Int.ediv_lt_iff_lt_mul (by omega)]
        have hpow : (2:Int) ^ (fuel + 1) = 2 ^ fuel * 2 := by ring
        have hp2 : (0:Int) ≤ 2 ^ fuel := by positivity
        nlinarith
      obtain ⟨cs, hcs1, hcs2, hcs3, hcs4, hcs5⟩ :=
        ih (divTotal temp (fromInt base)) q2 hqnn hqlt
      refine ⟨DigitToChar (value temp % base) :: cs, ?_, ?_, ?_, ?_, by omega⟩
      · unfold toStringLoop divInt
        rw [hne, if_pos rfl]
        simp only [hdiv, hok, hcs1]
      · intro c hc
        rcases List.mem_cons.mp hc with h | h
        · subst h
          rw [CharToDigit_DigitToChar (by omega) (by omega)]
          omega
        · exact hcs2 c h
      · simp only [lsfVal]
        rw [CharToDigit_DigitToChar hdnn (by omega), hcs3, q1,
          Int.tdiv_eq_ediv hvnn (by omega)]
        exact Int.emod_add_ediv _ _
      · intro _
        simp

theorem ToString_false_spec {x : BigInteger} (hx : Wf x) {base : Int}
    (hb2 : 2 ≤ base) (hb36 : base ≤ 36) :
    ∃ ds, (∀ c ∈ ds, 0 ≤ CharToDigit c ∧ CharToDigit c < base) ∧
      lsfVal base ds = |value x| ∧
      (value x ≠ 0 → ds ≠ []) ∧
      ToString x base false
        = .ok (if value x = 0 then [48]
              else if value x < 0 then 45 :: ds.reverse else ds.reverse) := by
  have habs_w : Wf (absOp x) := hx
  have habs_v : value (absOp x) = |value x| := value_absOp hx
  have hfuel : value (absOp x) < 2 ^ (30 * x.digits_.length + 2) := by
    rw [habs_v, ← poly_eq_abs_value hx.1]
    have h1 := poly_lt hx.1
    have h2 : internal_base ^ x.digits_.length
        ≤ (2:Int) ^ (30 * x.digits_.length) := by
      rw [pow_mul]
      have ha : (0:Int) ≤ internal_base := by decide
      have hab : internal_base ≤ (2:Int) ^ 30 := by decide
      exact pow_le_pow_left₀ ha hab _
    have h3 : (2:Int) ^ (30 * x.digits_.length)
        < 2 ^ (30 * x.digits_.length + 2) := by
      rw [pow_add]
      have hp : (0:Int) < 2 ^ (30 * x.digits_.length) := by positivity
      nlinarith
    omega
  obtain ⟨cs, hcs1, hcs2, hcs3, hcs4, hcs5⟩ := toStringLoop_spec hb2 hb36
    (30 * x.digits_.length + 2) (absOp x) habs_w
    (by rw [habs_v]; exact abs_nonneg _) hfuel
  refine ⟨cs, hcs2, by rw [hcs3, habs_v], ?_, ?_⟩
  · intro hvne
    apply hcs4
    rw [habs_v]
    rcases lt_or_gt_of_ne hvne with h | h
    · rw [abs_of_neg h]
      omega
    · rw [abs_of_pos h]
      omega
  · unfold ToString
    rw [if_neg (by omega), hcs1, eqInt_zero_spec hx, ltInt_zero_spec hx]
    by_cases hv0 : value x = 0
    · have hcs0 : cs = [] := by
        apply hcs5
        rw [habs_v, hv0]
        simp
      rw [if_pos hv0]
      simp [hv0, hcs0]
    · rw [if_neg hv0]
      by_cases hvn : value x < 0
      · rw [if_pos hvn]
        simp [hv0, hvn]
      · rw [if_neg hvn]
        simp [hv0, hvn]

/-! ## Parse error taxonomy -/

theorem specDigit_charToDigit (c : Int) :
    (specDigit c = none ∧ CharToDigit c = -1) ∨
    ∃ d, specDigit c = some d ∧ CharToDigit c = d ∧ 0 ≤ d ∧ d ≤ 35 := by
  unfold specDigit CharToDigit
  split_ifs with h1 h2
  · exact Or.inr ⟨c - 48, rfl, rfl, by omega, by omega⟩
  · exact Or.inr ⟨c - 97 + 10, rfl, rfl, by omega, by omega⟩
  · exact Or.inl ⟨rfl, rfl⟩

theorem goodAt_iff {base : Int} (hb : 2 ≤ base) (i : Nat) (c : Int)
    (h45 : ¬(i = 0 ∧ c = 45)) :
    goodAt base i c ↔ ¬(CharToDigit c ≥ base ∨ CharToDigit c = -1) := by
  rcases specDigit_charToDigit c with ⟨hn, hc⟩ | ⟨d, hs, hc, hd0, hd35⟩
  · constructor
    · rintro (h | ⟨d, hd, _⟩)
      · exact absurd h h45
      · rw [hn] at hd
        cases hd
    · intro h
      exact absurd (Or.inr hc) h
  · constructor
    · rintro (h | ⟨e, he, helt⟩)
      · exact absurd h h45
      · rw [hs, Option.some.injEq] at he
        rw [hc]
        omega
    · intro h
      rw [hc] at h
      exact Or.inr ⟨d, hs, by omega⟩

theorem validateFrom_none_iff {base : Int} (hb : 2 ≤ base) :
    ∀ (s : List Int) (k : Nat),
    validateFrom base k s = none ↔
      ∀ j, j < s.length → goodAt base (k + j) (s.getD j 0) := by
  intro s
  induction s with
  | nil =>
    intro k
    simp [validateFrom]
  | cons c cs ih =>
    intro k
    constructor
    · intro h j hj
      unfold validateFrom at h
      by_cases h45 : k = 0 ∧ c = 45
      · rw [if_pos h45] at h
        cases j with
        | zero =>
          simp only [List.getD_cons_zero, Nat.add_zero]
          exact Or.inl h45
        | succ j =>
          have hj' : j < cs.length := by simpa using hj
          have hg := (ih (k + 1)).mp h j hj'
          have he : k + 1 + j = k + (j + 1) := by omega
          rw [he] at hg
          simpa [List.getD_cons_succ] using hg
      · rw [if_neg h45] at h
        by_cases hbad : CharToDigit c ≥ base ∨ CharToDigit c = -1
        · rw [if_pos hbad] at h
          cases h
        · rw [if_neg hbad] at h
          cases j with
          | zero =>
            simp only [List.getD_cons_zero, Nat.add_zero]
            exact (goodAt_iff hb k c h45).mpr hbad
          | succ j =>
            have hj' : j < cs.length := by simpa using hj
            have hg := (ih (k + 1)).mp h j hj'
            have he : k + 1 + j = k + (j + 1) := by omega
            rw [he] at hg
            simpa [List.getD_cons_succ] using hg
    · intro h
      unfold validateFrom
      by_cases h45 : k = 0 ∧ c = 45
      · rw [if_pos h45]
        refine (ih (k + 1)).mpr ?_
        intro j hj
        have hg := h (j + 1) (by simp; omega)
        have he : k + (j + 1) = k + 1 + j := by omega
        rw [he] at hg
        simpa [List.getD_cons_succ] using hg
      · have hgood : goodAt base k c := by
          have hg := h 0 (by simp)
          simpa using hg
        have hbad : ¬(CharToDigit c ≥ base ∨ CharToDigit c = -1) :=
          (goodAt_iff hb k c h45).mp hgood
        rw [if_neg h45, if_neg hbad]
        refine (ih (k + 1)).mpr ?_
        intro j hj
        have hg := h (j + 1) (by simp; omega)
        have he : k + (j + 1) = k + 1 + j := by omega
        rw [he] at hg
        simpa [List.getD_cons_succ] using hg

theorem validateFrom_some {base : Int} (hb : 2 ≤ base) :
    ∀ (s : List Int) (k i : Nat), k ≤ i → i - k < s.length →
    ¬goodAt base i (s.getD (i - k) 0) →
    (∀ j, j < i - k → goodAt base (k + j) (s.getD j 0)) →
    validateFrom base k s = some i := by
  intro s
  induction s with
  | nil =>
    intro k i _ hlen _ _
    simp at hlen
  | cons c cs ih =>
    intro k i hki hlen hbad hall
    simp only [List.length_cons] at hlen
    by_cases hik : i = k
    · subst hik
      simp only [Nat.sub_self, List.getD_cons_zero] at hbad
      have h45 : ¬(i = 0 ∧ c = 45) := fun h => hbad (Or.inl h)
      have hb2 : CharToDigit c ≥ base ∨ CharToDigit c = -1 := by
        by_contra hc
        exact hbad ((goodAt_iff hb i c h45).mpr hc)
      unfold validateFrom
      rw [if_neg h45, if_pos hb2]
    · have hki' : k + 1 ≤ i := by omega
      have hsub : i - k = (i - (k + 1)) + 1 := by omega
      have hbad' : ¬goodAt base i (cs.getD (i - (k + 1)) 0) := by
        rw [hsub, List.getD_cons_succ] at hbad
        exact hbad
      have hall' : ∀ j, j < i - (k + 1) →
          goodAt base (k + 1 + j) (cs.getD j 0) := by
        intro j hj
        have hg := hall (j + 1) (by omega)
        have he : k + (j + 1) = k + 1 + j := by omega
        rw [he, List.getD_cons_succ] at hg
        exact hg
      have hgood : goodAt base k c := by
        have hg := hall 0 (by omega)
        simpa using hg
      unfold validateFrom
      by_cases h45 : k = 0 ∧ c = 45
      · rw [if_pos h45]
        exact ih (k + 1) i hki' (by omega) hbad' hall'
      · have hbadc := (goodAt_iff hb k c h45).mp hgood
        rw [if_neg h45, if_neg hbadc]
        exact ih (k + 1) i hki' (by omega) hbad' hall'

/-! ## Helpers for the claim theorems -/

theorem tdiv_sign_abs (a b : Int) (hb : b ≠ 0) :
    a.tdiv b = a.sign * b.sign * (|a| / |b|) := by
  rcases lt_trichotomy a 0 with ha | ha | ha
  · rcases lt_trichotomy b 0 with hbb | hbb | hbb
    · have h1 : a = -|a| := by rw [abs_of_neg ha]; ring
      have h2 : b = -|b| := by rw [abs_of_neg hbb]; ring
      rw [Int.sign_eq_neg_one_of_neg ha, Int.sign_eq_neg_one_of_neg hbb]
      conv_lhs => rw [h1, h2]
      rw [Int.neg_tdiv, Int.tdiv_neg, neg_neg,
        Int.tdiv_eq_ediv (abs_nonneg a) (abs_nonneg b)]
      ring
    · exact absurd hbb hb
    · have h1 : a = -|a| := by rw [abs_of_neg ha]; ring
      have h2 : b = |b| := (abs_of_pos hbb).symm
      rw [Int.sign_eq_neg_one_of_neg ha, Int.sign_eq_one_of_pos hbb]
      conv_lhs => rw [h1, h2]
      rw [Int.neg_tdiv, Int.tdiv_eq_ediv (abs_nonneg a) (abs_nonneg b)]
      ring
  · subst ha
    simp [Int.zero_tdiv]
  · rcases lt_trichotomy b 0 with hbb | hbb | hbb
    · have h1 : a = |a| := (abs_of_pos ha).symm
      have h2 : b = -|b| := by rw [abs_of_neg hbb]; ring
      rw [Int.sign_eq_one_of_pos ha, Int.sign_eq_neg_one_of_neg hbb]
      conv_lhs => rw [h1, h2]
      rw [Int.tdiv_neg, Int.tdiv_eq_ediv (abs_nonneg a) (abs_nonneg b)]
      ring
    · exact absurd hbb hb
    · have h1 : a = |a| := (abs_of_pos ha).symm
      have h2 : b = |b| := (abs_of_pos hbb).symm
      rw [Int.sign_eq_one_of_pos ha, Int.sign_eq_one_of_pos hbb]
      conv_lhs => rw [h1, h2]
      rw [Int.tdiv_eq_ediv (abs_nonneg a) (abs_nonneg b)]
      ring

theorem sign_char (v : Int) :
    (v.sign = -1 ∧ v < 0) ∨ (v.sign = 0 ∧ v = 0) ∨ (v.sign = 1 ∧ 0 < v) := by
  rcases lt_trichotomy v 0 with h | h | h
  · exact Or.inl ⟨Int.sign_eq_neg_one_of_neg h, h⟩
  · exact Or.inr (Or.inl ⟨by rw [h]; rfl, h⟩)
  · exact Or.inr (Or.inr ⟨Int.sign_eq_one_of_pos h, h⟩)

theorem sign_lt_imp {u v : Int} (h : u.sign < v.sign) : u < v := by
  rcases sign_char u with ⟨h1, h2⟩ | ⟨h1, h2⟩ | ⟨h1, h2⟩ <;>
    rcases sign_char v with ⟨g1, g2⟩ | ⟨g1, g2⟩ | ⟨g1, g2⟩ <;>
    omega

theorem goodAt_digit {base : Int} {j : Nat} {c : Int} (hj : j ≠ 0 ∨ c ≠ 45)
    (h : goodAt base j c) : 0 ≤ CharToDigit c ∧ CharToDigit c < base := by
  rcases h with ⟨h0, h1⟩ | ⟨d, hd, hlt⟩
  · rcases hj with hj | hj
    · exact absurd h0 hj
    · exact absurd h1 hj
  · rcases specDigit_charToDigit c with ⟨hn, _⟩ | ⟨e, he, hc, he0, _⟩
    · rw [hn] at hd
      cases hd
    · rw [he, Option.some.injEq] at hd
      rw [hc]
      omega

theorem FromString_wf {s : List Int} {base : Int} {y : BigInteger}
    (hb2 : 2 ≤ base) (hb36 : base ≤ 36)
    (h : FromString s base = .ok y) : Wf y := by
  have hval : validateFrom base 0 s = none := by
    cases hv : validateFrom base 0 s with
    | none => rfl
    | some i =>
      unfold FromString at h
      rw [if_neg (by omega), hv] at h
      cases h
  have hall : ∀ j, j < s.length → goodAt base j (s.getD j 0) := by
    have hiff := (validateFrom_none_iff hb2 s 0).mp hval
    intro j hj
    simpa using hiff j hj
  cases s with
  | nil =>
    have he : FromString [] base = .ok (fromInt 0) := by
      unfold FromString
      rw [if_neg (by omega), hval]
      simp [accumLoop]
    rw [he] at h
    injection h with h2
    rw [← h2]
    decide
  | cons c cs =>
    by_cases hc45 : c = 45
    · subst hc45
      cases cs with
      | nil =>
        have he : FromString [45] base = .ok (negOp (fromInt 0)) := by
          unfold FromString
          rw [if_neg (by omega), hval]
          simp [accumLoop]
        rw [he] at h
        injection h with h2
        rw [← h2]
        decide
      | cons c2 cs2 =>
        have hds : ∀ e ∈ c2 :: cs2, 0 ≤ CharToDigit e ∧ CharToDigit e < base := by
          intro e he
          obtain ⟨j, hj, hje⟩ := List.mem_iff_getElem.mp he
          have hg := hall (j + 1) (by simp only [List.length_cons] at hj ⊢; omega)
          have hgd : ((45 : Int) :: c2 :: cs2).getD (j + 1) 0 = e := by
            rw [List.getD_cons_succ, List.getD_eq_getElem _ _ hj]
            exact hje
          rw [hgd] at hg
          exact goodAt_digit (Or.inl (by omega)) hg
        obtain ⟨y2, hy1, hy2, _⟩ := FromString_ok hb2 hb36 [45] (c2 :: cs2)
          (Or.inr rfl) hds (by simp)
        have he45 : ([45] : List Int) ++ c2 :: cs2 = 45 :: c2 :: cs2 := rfl
        rw [he45] at hy1
        rw [hy1] at h
        injection h with h2
        rw [← h2]
        exact hy2
    · have hds : ∀ e ∈ c :: cs, 0 ≤ CharToDigit e ∧ CharToDigit e < base := by
        intro e he
        obtain ⟨j, hj, hje⟩ := List.mem_iff_getElem.mp he
        have hg := hall j hj
        have hgd : ((c : Int) :: cs).getD j 0 = e := by
          rw [List.getD_eq_getElem _ _ hj]
          exact hje
        rw [hgd] at hg
        refine goodAt_digit ?_ hg
        by_cases hj0 : j = 0
        · subst hj0
          right
          simp only [List.getElem_cons_zero] at hje
          rw [← hje]
          exact hc45
        · exact Or.inl hj0
      obtain ⟨y2, hy1, hy2, _⟩ := FromString_ok hb2 hb36 [] (c :: cs)
        (Or.inl rfl) hds (by simp)
      rw [List.nil_append] at hy1
      rw [hy1] at h
      injection h with h2
      rw [← h2]
      exact hy2

/-! ## The claims -/

/-- C1: for `b ≠ 0` the quotient request succeeds; `(a/b)*b + (a - (a/b)*b)`
compares equal to `a`; the quotient truncates toward zero, its sign following
the XOR-of-signs rule with `|a/b| = ⌊|a|/|b|⌋`; and in the all-positive long
division, `GuessDigit` returns the unique `q ∈ [0, B)` with
`q*b ≤ remainder < (q+1)*b`. -/
theorem C1_division_correct :
    (∀ a b : BigInteger, Wf a → Wf b → value b ≠ 0 →
      ∃ q, divOp a b = .ok q ∧ Wf q ∧
        eqOp (add (mul q b) (sub a (mul q b))) a = true ∧
        value q = (value a).sign * (value b).sign * (|value a| / |value b|) ∧
        value q = (value a).tdiv (value b)) ∧
    (∀ rem d : BigInteger, Wf d → 0 < value d →
      rem.is_negative = false → DigitsInRange rem.digits_ →
      (CanonDigits rem.digits_ ∨ rem.digits_ = [0]) →
      poly rem.digits_ < internal_base * value d →
      0 ≤ GuessDigit rem d ∧ GuessDigit rem d < internal_base ∧
      GuessDigit rem d * value d ≤ poly rem.digits_ ∧
      poly rem.digits_ < (GuessDigit rem d + 1) * value d ∧
      ∀ q2 : Int, q2 * value d ≤ poly rem.digits_ →
        poly rem.digits_ < (q2 + 1) * value d → q2 = GuessDigit rem d) := by
  constructor
  · intro a b ha hb hvb
    obtain ⟨hq1, hq2, hq3⟩ := divOp_spec ha hb hvb
    obtain ⟨hm1, hm2⟩ := mul_spec hq3 hb
    obtain ⟨hs1, hs2⟩ := sub_spec ha hm2
    obtain ⟨ha1, ha2⟩ := add_spec hm2 hs2
    refine ⟨divTotal a b, hq1, hq3, ?_, ?_, hq2⟩
    · rw [eqOp_spec ha2 ha, ha1, hs1]
      simp
    · rw [hq2, tdiv_sign_abs _ _ hvb]
  · intro rem d hd hvd hrf hrd hrc hbound
    have hq := GuessDigit_spec hd hvd hrf hrd hrc hbound
    have hr0 : 0 ≤ poly rem.digits_ := poly_nonneg hrd
    have hem := Int.emod_add_ediv (poly rem.digits_) (value d)
    have hm0 : 0 ≤ poly rem.digits_ % value d :=
      Int.emod_nonneg _ (ne_of_gt hvd)
    have hm1 : poly rem.digits_ % value d < value d :=
      Int.emod_lt_of_pos _ hvd
    rw [hq]
    refine ⟨Int.ediv_nonneg hr0 (le_of_lt hvd), ?_, ?_, ?_, ?_⟩
    · rw [Int.ediv_lt_iff_lt_mul hvd]
      exact hbound
    · nlinarith [hem, hm0]
    · nlinarith [hem, hm1]
    · intro q2 hql hqu
      have hle : q2 ≤ poly rem.digits_ / value d :=
        (Int.le_ediv_iff_mul_le hvd).mpr hql
      have hlt2 : poly rem.digits_ / value d < q2 + 1 := by
        rw [Int.ediv_lt_iff_lt_mul hvd]
        exact hqu
      omega

theorem C1_division_correct_witness :
    (∃ q, divOp (fromInt 7) (fromInt 3) = .ok q ∧ Wf q ∧
      eqOp (add (mul q (fromInt 3)) (sub (fromInt 7) (mul q (fromInt 3))))
        (fromInt 7) = true ∧
      value q = (value (fromInt 7)).sign * (value (fromInt 3)).sign
        * (|value (fromInt 7)| / |value (fromInt 3)|) ∧
      value q = (value (fromInt 7)).tdiv (value (fromInt 3))) ∧
    (0 ≤ GuessDigit (fromInt 7) (fromInt 3) ∧
      GuessDigit (fromInt 7) (fromInt 3) < internal_base ∧
      GuessDigit (fromInt 7) (fromInt 3) * value (fromInt 3)
        ≤ poly (fromInt 7).digits_ ∧
      poly (fromInt 7).digits_
        < (GuessDigit (fromInt 7) (fromInt 3) + 1) * value (fromInt 3)) := by
  have h2 := C1_division_correct.2 (fromInt 7) (fromInt 3) (by decide) (by decide)
    (by decide) (by decide) (by decide) (by decide)
  exact ⟨C1_division_correct.1 (fromInt 7) (fromInt 3) (by decide) (by decide)
    (by decide), h2.1, h2.2.1, h2.2.2.1, h2.2.2.2.1⟩

/-- C3 counterexample: adding `-5` and `5` leaves an empty limb vector with
the negative flag still set, so the claimed invariant "the sign flag is
never negative for a canonical zero" fails for the result of `operator+`. -/
theorem C3_negative_zero_counterexample :
    (add (fromInt (-5)) (fromInt 5)).digits_ = [] ∧
    (add (fromInt (-5)) (fromInt 5)).is_negative = true ∧
    value (add (fromInt (-5)) (fromInt 5)) = 0 := by
  decide

/-- C3 (amended): every operation keeps the limbs in range with no trailing
zero limb (so the value zero always has an empty limb sequence), and the
exposed sign query never reports a zero as negative — but the internal flag
itself may be set on a zero result. -/
theorem C3_canonical_amended :
    (∀ v : Int, v.natAbs ≤ 2 ^ 63 → Wf (fromInt v)) ∧
    (∀ x y : BigInteger, Wf x → Wf y →
      Wf (add x y) ∧ Wf (sub x y) ∧ Wf (mul x y)) ∧
    (∀ x y : BigInteger, Wf x → Wf y → value y ≠ 0 → Wf (divTotal x y)) ∧
    (∀ x : BigInteger, Wf x → Wf (negOp x) ∧ Wf (absOp x)) ∧
    (∀ (s : List Int) (base : Int) (y : BigInteger), 2 ≤ base → base ≤ 36 →
      FromString s base = .ok y → Wf y) ∧
    (∀ x : BigInteger, Wf x → value x = 0 → x.digits_ = []) ∧
    (∀ x : BigInteger, Wf x → Sign x = Int.sign (value x)) ∧
    (∀ x : BigInteger, Wf x → value x = 0 → Sign x = 0) := by
  refine ⟨fun v hv => wf_fromInt v hv, ?_, ?_, ?_, ?_, ?_, ?_, ?_⟩
  · intro x y hx hy
    exact ⟨(add_spec hx hy).2, (sub_spec hx hy).2, (mul_spec hx hy).2⟩
  · intro x y hx hy hvy
    exact (divTotal_spec hx hy hvy).2
  · intro x hx
    refine ⟨wf_negOp hx, ?_⟩
    unfold Wf
    rw [absOp_digits]
    exact hx
  · intro s base y hb2 hb36 h
    exact FromString_wf hb2 hb36 h
  · intro x hx hv
    exact digits_eq_nil_of_value_zero hx hv
  · intro x hx
    exact Sign_spec hx
  · intro x hx hv
    rw [Sign_spec hx, hv]
    rfl

theorem C3_canonical_amended_witness :
    Wf (add (fromInt (-5)) (fromInt 5)) ∧
    Sign (add (fromInt (-5)) (fromInt 5)) = 0 := by
  have hw := (C3_canonical_amended.2.1 (fromInt (-5)) (fromInt 5)
    (by decide) (by decide)).1
  exact ⟨hw, C3_canonical_amended.2.2.2.2.2.2.2 (add (fromInt (-5)) (fromInt 5))
    hw (by decide)⟩

/-- C4: dividing or taking the remainder by zero always reports the
division-by-zero error, for every dividend including zero, with no partial
result. -/
theorem C4_div_by_zero (a b : BigInteger) (hb : Wf b) (hvb : value b = 0) :
    divOp a b = .error .divZero ∧ divInt a 0 = .error .divZero ∧
      modOp a 0 = .error .divZero := by
  have hnil : b.digits_ = [] := digits_eq_nil_of_value_zero hb hvb
  have hz : divOp a (fromInt 0) = .error .divZero :=
    divOp_zero a (fromInt 0) (by rw [fromInt_zero])
  refine ⟨divOp_zero a b hnil, hz, ?_⟩
  unfold modOp
  have h : divInt a ((0:Nat):Int) = .error .divZero := by
    unfold divInt
    rw [Nat.cast_zero]
    exact hz
  rw [h]

theorem C4_div_by_zero_witness :
    divOp (fromInt 7) (fromInt 0) = .error .divZero ∧
    divInt (fromInt 7) 0 = .error .divZero ∧
    modOp (fromInt 7) 0 = .error .divZero :=
  C4_div_by_zero (fromInt 7) (fromInt 0) (by decide) (by decide)

/-- C5: parsing fails with the invalid-base error when the base is outside
`[2, 36]`; with a valid base, the first index violating the rule "a minus
sign at index 0, or a character mapping through `'0'-'9' → 0-9`,
`'a'-'z' → 10-35` to a digit strictly below the base" is reported in the
invalid-character error, and a string with no such index parses
successfully. -/
theorem C5_parse_error_taxonomy (s : List Int) (base : Int) :
    ((base < 2 ∨ base > 36) → FromString s base = .error .invalidBase) ∧
    (2 ≤ base → base ≤ 36 →
      ∀ i, i < s.length → ¬goodAt base i (s.getD i 0) →
      (∀ j, j < i → goodAt base j (s.getD j 0)) →
      FromString s base = .error (.invalidChar i)) ∧
    (2 ≤ base → base ≤ 36 →
      (∀ j, j < s.length → goodAt base j (s.getD j 0)) →
      ∃ y, FromString s base = .ok y) := by
  refine ⟨?_, ?_, ?_⟩
  · intro hbase
    unfold FromString
    rw [if_pos (by omega)]
  · intro hb2 hb36 i hi hbad hall
    have hsome : validateFrom base 0 s = some i := by
      apply validateFrom_some hb2 s 0 i (by omega) (by simpa using hi)
        (by simpa using hbad)
      intro j hj
      simpa using hall j (by omega)
    unfold FromString
    rw [if_neg (by omega), hsome]
  · intro hb2 hb36 hall
    have hnone : validateFrom base 0 s = none := by
      rw [validateFrom_none_iff hb2 s 0]
      intro j hj
      simpa using hall j hj
    refine ⟨if s.headD 0 = 45
      then negOp (accumLoop base s.reverse (fromInt 0) (fromInt 1))
      else accumLoop base s.reverse (fromInt 0) (fromInt 1), ?_⟩
    unfold FromString
    rw [if_neg (by omega), hnone]

theorem C5_parse_error_taxonomy_witness :
    FromString [49, 45] 10 = .error (.invalidChar 1) :=
  (C5_parse_error_taxonomy [49, 45] 10).2.1 (by decide) (by decide) 1
    (by decide) (by decide) (by decide)

/-- C6: the remainder against a nonzero unsigned native modulus `m` below
`2^32` is computed as `((a - (a/m)*m) mod m + m) mod m` with the truncating
`mod`, and lies in `[0, m)` whatever the sign of `a`. -/
theorem C6_unsigned_remainder (a : BigInteger) (m : Nat) (ha : Wf a)
    (hm0 : 0 < m) (hm1 : (m:Int) < 2 ^ 32) :
    ∃ r, modOp a m = .ok r ∧
      r = ((value a - (value a).tdiv m * (m:Int)).tmod m + m).tmod m ∧
      0 ≤ r ∧ r < (m:Int) := by
  obtain ⟨h1, h2, h3⟩ := modOp_spec ha m hm0 hm1
  refine ⟨value a % (m:Int), h1, ?_, h2, h3⟩
  have hmpos : (0:Int) < m := by exact_mod_cast hm0
  have ht : value a - (value a).tdiv m * (m:Int) = (value a).tmod m := by
    rw [Int.tmod_def]
    ring
  obtain ⟨hb1, hb2⟩ := tmod_bounds (value a) hmpos
  have hid : ∀ t : Int, -(m:Int) < t → t < m → t.tmod m = t := by
    intro t ht1 ht2
    rcases le_or_lt 0 t with hc | hc
    · rw [Int.tmod_eq_emod hc (le_of_lt hmpos), Int.emod_eq_of_lt hc ht2]
    · have hc3 : (-t).tmod m = -t := by
        rw [Int.tmod_eq_emod (by omega) (le_of_lt hmpos),
          Int.emod_eq_of_lt (by omega) (by omega)]
      have hc4 : (-(-t)).tmod (m:Int) = -((-t).tmod m) := tmod_neg_arg (-t) m
      rw [neg_neg] at hc4
      rw [hc4, hc3, neg_neg]
  rw [ht, hid ((value a).tmod m) hb1 hb2]
  have hnn : 0 ≤ (value a).tmod m + (m:Int) := by omega
  have hsum : (value a).tmod m + (m:Int)
      = value a + (m:Int) * (1 - (value a).tdiv m) := by
    rw [Int.tmod_def]
    ring
  calc value a % (m:Int)
      = (value a + (m:Int) * (1 - (value a).tdiv m)) % m :=
        (Int.add_mul_emod_self_left (value a) ((m:Int))
          (1 - (value a).tdiv m)).symm
    _ = ((value a).tmod m + m) % m := by rw [hsum]
    _ = ((value a).tmod m + m).tmod m :=
        (Int.tmod_eq_emod hnn (le_of_lt hmpos)).symm

theorem C6_unsigned_remainder_witness : modOp (fromInt (-17)) 5 = .ok 3 := by
  obtain ⟨r, h1, h2, h3, h4⟩ := C6_unsigned_remainder (fromInt (-17)) 5
    (by decide) (by decide) (by decide)
  have hr : r = 3 := by
    rw [h2]
    decide
  rw [← hr]
  exact h1

/-- C7: the comparisons form a total order — exactly one of `<`, `==`, `>`
holds for any well-formed pair; a strictly smaller sign forces `<`; and
within equal signs the order is decided by `CompareAbsoluteValues`, reversed
on negatives. -/
theorem C7_total_order (a b : BigInteger) (ha : Wf a) (hb : Wf b) :
    ((ltOp a b = true ∧ eqOp a b = false ∧ gtOp a b = false) ∨
     (ltOp a b = false ∧ eqOp a b = true ∧ gtOp a b = false) ∨
     (ltOp a b = false ∧ eqOp a b = false ∧ gtOp a b = true)) ∧
    (Sign a < Sign b → ltOp a b = true) ∧
    (Sign a = Sign b →
      (ltOp a b = true ↔
        (0 ≤ Sign a ∧ CompareAbsoluteValues a b = -1) ∨
        (Sign a < 0 ∧ CompareAbsoluteValues a b = 1))) := by
  have hlt := ltOp_spec ha hb
  have heq := eqOp_spec ha hb
  have hgt := gtOp_spec ha hb
  have hsa := Sign_spec ha
  have hsb := Sign_spec hb
  have hca := cmpAbs_abs_spec ha hb
  refine ⟨?_, ?_, ?_⟩
  · rcases lt_trichotomy (value a) (value b) with h | h | h
    · left
      refine ⟨?_, ?_, ?_⟩ <;> simp [hlt, heq, hgt] <;> omega
    · right
      left
      refine ⟨?_, ?_, ?_⟩ <;> simp [hlt, heq, hgt] <;> omega
    · right
      right
      refine ⟨?_, ?_, ?_⟩ <;> simp [hlt, heq, hgt] <;> omega
  · intro hab
    rw [hsa, hsb] at hab
    rw [hlt]
    simp only [decide_eq_true_eq]
    exact sign_lt_imp hab
  · intro hab
    rw [hsa, hsb] at hab
    rw [hlt, hca, hsa]
    simp only [decide_eq_true_eq]
    rcases sign_char (value a) with ⟨h1, h2⟩ | ⟨h1, h2⟩ | ⟨h1, h2⟩ <;>
      rcases sign_char (value b) with ⟨g1, g2⟩ | ⟨g1, g2⟩ | ⟨g1, g2⟩
    · rw [abs_of_neg h2, abs_of_neg g2, h1]
      constructor
      · intro h
        exact Or.inr ⟨by norm_num, Int.sign_eq_one_of_pos (by omega)⟩
      · rintro (⟨h0, _⟩ | ⟨_, hs⟩)
        · norm_num at h0
        · have := Int.sign_eq_one_iff_pos.mp hs
          omega
    · exact absurd hab (by omega)
    · exact absurd hab (by omega)
    · exact absurd hab (by omega)
    · rw [h2, g2]
      simp
    · exact absurd hab (by omega)
    · exact absurd hab (by omega)
    · exact absurd hab (by omega)
    · rw [abs_of_pos h2, abs_of_pos g2, h1]
      constructor
      · intro h
        exact Or.inl ⟨by norm_num, Int.sign_eq_neg_one_of_neg (by omega)⟩
      · rintro (⟨_, hs⟩ | ⟨h0, _⟩)
        · have := Int.sign_eq_neg_one_iff_neg.mp hs
          omega
        · norm_num at h0

theorem C7_total_order_witness :
    ltOp (fromInt 2) (fromInt (-3)) = false ∧
    eqOp (fromInt 2) (fromInt (-3)) = false ∧
    gtOp (fromInt 2) (fromInt (-3)) = true := by
  rcases (C7_total_order (fromInt 2) (fromInt (-3)) (by decide) (by decide)).1
    with h | h | h
  · exact absurd h.1 (by decide)
  · exact absurd h.2.1 (by decide)
  · exact h

/-- C2: for every well-formed value (including zero and negatives) and every
base in `[2, 36]`, parsing the rendered text (without the base-prefix flag)
yields a value equal to the original. -/
theorem C2_roundtrip (x : BigInteger) (hx : Wf x) (base : Int)
    (hb2 : 2 ≤ base) (hb36 : base ≤ 36) :
    ∃ cs y, ToString x base false = .ok cs ∧ FromString cs base = .ok y ∧
      value y = value x ∧ eqOp y x = true := by
  obtain ⟨ds, hds1, hds2, hds3, hds4⟩ := ToString_false_spec hx hb2 hb36
  by_cases hv0 : value x = 0
  · rw [if_pos hv0] at hds4
    have h48 : CharToDigit 48 = 0 := by decide
    obtain ⟨y, hy1, hy2, hy3⟩ := FromString_ok hb2 hb36 [] [48] (Or.inl rfl)
      (by
        intro c hc
        simp only [List.mem_singleton] at hc
        subst hc
        rw [h48]
        omega)
      (by simp)
    have hyv : value y = value x := by
      rw [hy3, hv0]
      simp [lsfVal, h48]
    refine ⟨[48], y, hds4, by simpa using hy1, hyv, ?_⟩
    rw [eqOp_spec hy2 hx, hyv]
    simp
  · rcases lt_or_gt_of_ne hv0 with hneg | hpos
    · rw [if_neg hv0, if_pos hneg] at hds4
      obtain ⟨y, hy1, hy2, hy3⟩ := FromString_ok hb2 hb36 [45] ds.reverse
        (Or.inr rfl)
        (fun c hc => hds1 c (List.mem_reverse.mp hc))
        (by simpa using hds3 hv0)
      have he45 : (([45] : List Int) = [45]) := rfl
      rw [if_pos he45, List.reverse_reverse, hds2] at hy3
      have hyv : value y = value x := by
        rw [hy3, abs_of_neg hneg]
        ring
      refine ⟨45 :: ds.reverse, y, hds4, by simpa using hy1, hyv, ?_⟩
      rw [eqOp_spec hy2 hx, hyv]
      simp
    · rw [if_neg hv0, if_neg (by omega)] at hds4
      obtain ⟨y, hy1, hy2, hy3⟩ := FromString_ok hb2 hb36 [] ds.reverse
        (Or.inl rfl)
        (fun c hc => hds1 c (List.mem_reverse.mp hc))
        (by simpa using hds3 hv0)
      rw [if_neg (by simp), List.reverse_reverse, hds2] at hy3
      have hyv : value y = value x := by
        rw [hy3, abs_of_pos hpos]
        ring
      refine ⟨ds.reverse, y, hds4, by simpa using hy1, hyv, ?_⟩
      rw [eqOp_spec hy2 hx, hyv]
      simp

theorem C2_roundtrip_witness :
    ∃ cs y, ToString (fromInt (-255)) 16 false = .ok cs ∧
      FromString cs 16 = .ok y ∧ value y = value (fromInt (-255)) ∧
      eqOp y (fromInt (-255)) = true :=
  C2_roundtrip (fromInt (-255)) (by decide) 16 (by decide) (by decide)

/-- C8: the checked narrowing to `int64_t` fails with the overflow error
exactly when the value lies outside `[-2^63, 2^63 - 1]`, and returns the
value itself (including the extreme `-2^63`) otherwise. -/
theorem C8_narrowing_int64 (x : BigInteger) (hx : Wf x) :
    (toInt64 x = .error .overflow ↔
      value x < -(2 ^ 63) ∨ 2 ^ 63 - 1 < value x) ∧
    (-(2 ^ 63) ≤ value x → value x ≤ 2 ^ 63 - 1 →
      toInt64 x = .ok (value x)) := by
  obtain ⟨h1, h2⟩ := toInt64_spec hx
  refine ⟨⟨?_, h1⟩, h2⟩
  intro he
  by_contra hout
  have hok := h2 (by omega) (by omega)
  rw [hok] at he
  cases he

theorem C8_narrowing_int64_witness :
    toInt64 (fromInt (-9223372036854775808)) = .ok (-9223372036854775808) := by
  have h := (C8_narrowing_int64 (fromInt (-9223372036854775808)) (by decide)).2
    (by decide) (by decide)
  rw [h]
  have hv : value (fromInt (-9223372036854775808)) = -9223372036854775808 := by
    decide
  rw [hv]

/-- C9: what `operator<<` actually does, refuting the claimed ambient-base
rendering.  With the hex basefield set and showbase clear, the value `255`
is written as the decimal digits `"255"` (codes `50, 53, 53`) rather than
`"ff"`; with hex and showbase set, `-255` is written as `"--255"`
(the sign is emitted once by the operator and once more inside the
base-10 rendering). -/
theorem C9_stream_ambient_base_refuted :
    insertToStream ⟨true, false, false⟩ (fromInt 255) = .ok [50, 53, 53] ∧
    insertToStream ⟨true, false, true⟩ (fromInt (-255))
      = .ok [45, 45, 50, 53, 53] := by
  constructor
  · rfl
  · rfl

/-- C10: a representation with an empty limb vector behaves as canonical
zero at the public interface whatever its internal flag: the sign query
returns `0`, every comparison against the canonical zero reports equality,
and it renders as `"0"` (code `48`) in every valid base. -/
theorem C10_empty_digits_zero (b : Bool) (base : Int)
    (hb2 : 2 ≤ base) (hb36 : base ≤ 36) :
    Sign ⟨[], b⟩ = 0 ∧
    eqOp ⟨[], b⟩ (fromInt 0) = true ∧
    neOp ⟨[], b⟩ (fromInt 0) = false ∧
    ltOp ⟨[], b⟩ (fromInt 0) = false ∧
    gtOp ⟨[], b⟩ (fromInt 0) = false ∧
    leOp ⟨[], b⟩ (fromInt 0) = true ∧
    geOp ⟨[], b⟩ (fromInt 0) = true ∧
    ToString ⟨[], b⟩ base false = .ok [48] := by
  have hw : Wf ⟨[], b⟩ := ⟨digitsInRange_nil, by simp [CanonDigits]⟩
  have hv : value ⟨[], b⟩ = 0 := by
    unfold value
    simp
  have h0 := fromInt_spec 0 (by simp)
  refine ⟨?_, ?_, ?_, ?_, ?_, ?_, ?_, ?_⟩
  · simp [Sign]
  · rw [eqOp_spec hw h0.2.1, h0.1, hv]
    simp
  · rw [neOp_spec hw h0.2.1, h0.1, hv]
    simp
  · rw [ltOp_spec hw h0.2.1, h0.1, hv]
    simp
  · rw [gtOp_spec hw h0.2.1, h0.1, hv]
    simp
  · rw [leOp_spec hw h0.2.1, h0.1, hv]
    simp
  · rw [geOp_spec hw h0.2.1, h0.1, hv]
    simp
  · obtain ⟨ds, _, _, _, h4⟩ := ToString_false_spec hw hb2 hb36
    simp only [hv] at h4
    simpa using h4

theorem C10_empty_digits_zero_witness :
    Sign ⟨[], true⟩ = 0 ∧ eqOp ⟨[], true⟩ (fromInt 0) = true ∧
    ToString ⟨[], true⟩ 10 false = .ok [48] := by
  obtain ⟨h1, h2, _, _, _, _, _, h8⟩ :=
    C10_empty_digits_zero true 10 (by decide) (by decide)
  exact ⟨h1, h2, h8⟩

end big_num_arithmetic
